import Mathlib

/-!
Verification development for the WhatsApp transcript parsing and media-linking
engine (`streamlit_wachat_app.py`).  The Python source is shallowly embedded:

* Python `re` patterns are embedded as terms of a small regex AST (`RE`) run by
  a backtracking matcher `reMatch` faithful to Python's leftmost,
  preference-order (greedy/lazy, first-alternative-first) semantics with
  capture groups.  Character classes model Python semantics for the character
  ranges actually exercised by the program (ASCII digits/letters plus the
  Unicode whitespace and mark code points the source manipulates).
* `datetime.strptime` is embedded for the fixed format strings the program
  uses, including CPython's per-directive sub-regexes and the calendar
  validation performed by the `datetime` constructor.
* File-system and Streamlit I/O are out of scope: `parse_chat_text` takes the
  three per-encoding decode results as inputs, and `link_attachments` takes
  the media catalog (the `media_files` dict in insertion order) as input.
-/

/-! ## Python character classes and string helpers -/

/-- Unicode whitespace as recognised by Python `str.strip` and the `re` class
`\s` (the code points relevant to text): ASCII whitespace, the C1/Unicode
space separators, and the line/paragraph separators. -/
def pyIsSpace (c : Char) : Bool :=
  c = ' ' || c = '\t' || c = '\n' || c = '\r' || c = '\x0b' || c = '\x0c' ||
  c = '\x1c' || c = '\x1d' || c = '\x1e' || c = '\x1f' || c = '\x85' ||
  c = '\u00a0' || c = '\u1680' ||
  ('\u2000' ≤ c && c ≤ '\u200a') ||
  c = '\u2028' || c = '\u2029' || c = '\u202f' || c = '\u205f' || c = '\u3000'

/-- `\d` (ASCII model). -/
def pyIsDigit (c : Char) : Bool := c.isDigit

/-- `\w` (ASCII model): letters, digits, underscore. -/
def pyIsWord (c : Char) : Bool := c.isAlpha || c.isDigit || c = '_'

/-- Python `str.strip()` on a character list. -/
def pyStrip (s : List Char) : List Char :=
  ((s.dropWhile pyIsSpace).reverse.dropWhile pyIsSpace).reverse

/-- Python `str.strip()` on a `String`. -/
def pyStripS (s : String) : String := ⟨pyStrip s.data⟩

/-- Python `str.lower()` (ASCII model; the non-ASCII characters the program
lowercases are already lowercase). -/
def pyLower (s : List Char) : List Char := s.map Char.toLower

/-- Python `str.upper()` (ASCII model). -/
def pyUpper (s : List Char) : List Char := s.map Char.toUpper

/-- Python `str.replace(old, new)` for single-character `old`/`new`. -/
def pyReplaceChar (s : List Char) (old new : Char) : List Char :=
  s.map fun c => if c = old then new else c

/-- Python `str.replace(old, "")` for a single-character `old`. -/
def pyDeleteChar (s : List Char) (old : Char) : List Char :=
  s.filter fun c => c ≠ old

/-- Does the list start with the given needle? -/
def listStartsWith : List Char → List Char → Bool
  | [], _ => true
  | _ :: _, [] => false
  | n :: ns, c :: cs => n = c && listStartsWith ns cs

/-- Python `needle in haystack` substring test. -/
def pySubstr : List Char → List Char → Bool
  | needle, [] => needle.isEmpty
  | needle, c :: rest => listStartsWith needle (c :: rest) || pySubstr needle rest

/-- Line-break characters recognised by Python `str.splitlines`. -/
def pyIsLineBreak (c : Char) : Bool :=
  c = '\n' || c = '\r' || c = '\x0b' || c = '\x0c' ||
  c = '\x1c' || c = '\x1d' || c = '\x1e' || c = '\x85' ||
  c = '\u2028' || c = '\u2029'

/-- Python `str.splitlines()` (with `\r\n` as a single break, and no empty
trailing line after a final break). -/
def pySplitlinesGo : List Char → List Char → List (List Char)
  | [], acc => if acc.isEmpty then [] else [acc.reverse]
  | '\r' :: '\n' :: rest, acc => acc.reverse :: pySplitlinesGo rest []
  | c :: rest, acc =>
      if pyIsLineBreak c then acc.reverse :: pySplitlinesGo rest []
      else pySplitlinesGo rest (c :: acc)

def pySplitlines (s : List Char) : List (List Char) := pySplitlinesGo s []

/-! ## Regex engine

A backtracking matcher with Python `re` preference semantics: alternation is
tried left first; `starG`/`plusG`/`optG` are greedy (prefer consuming more),
`plusL` is lazy (prefer consuming less); `grp n` records the substring consumed
by its body as capture group `n` (most recent assignment first). -/

inductive RE where
  | eps : RE
  | cls : (Char → Bool) → RE
  | cat : RE → RE → RE
  | alt : RE → RE → RE
  | starG : RE → RE
  | plusG : RE → RE
  | plusL : RE → RE
  | optG : RE → RE
  | grp : Nat → RE → RE

/-- Structural size, used only to bound the matcher's fuel. -/
def reSize : RE → Nat
  | .eps => 1
  | .cls _ => 1
  | .cat a b => reSize a + reSize b + 1
  | .alt a b => reSize a + reSize b + 1
  | .starG a => reSize a + 1
  | .plusG a => reSize a + 1
  | .plusL a => reSize a + 1
  | .optG a => reSize a + 1
  | .grp _ a => reSize a + 1

/-- Captures: group number paired with the consumed substring, most recent
first (Python keeps the last assignment of a group). -/
abbrev Caps := List (Nat × List Char)

/-- CPS backtracking matcher.  `k` is the continuation receiving the remaining
input and the captures; `none` from the continuation triggers backtracking
into earlier choice points, exactly as in Python's engine. -/
def reMatch {α : Type} (fuel : Nat) (r : RE) (s : List Char) (caps : Caps)
    (k : List Char → Caps → Option α) : Option α :=
  match fuel with
  | 0 => none
  | fuel + 1 =>
    match r with
    | .eps => k s caps
    | .cls p =>
      match s with
      | [] => none
      | c :: rest => if p c then k rest caps else none
    | .cat a b => reMatch fuel a s caps fun s2 caps2 => reMatch fuel b s2 caps2 k
    | .alt a b =>
      match reMatch fuel a s caps k with
      | some out => some out
      | none => reMatch fuel b s caps k
    | .starG a =>
      match reMatch fuel a s caps
          (fun s2 caps2 => reMatch fuel (.starG a) s2 caps2 k) with
      | some out => some out
      | none => k s caps
    | .plusG a =>
      reMatch fuel a s caps fun s2 caps2 => reMatch fuel (.starG a) s2 caps2 k
    | .plusL a =>
      reMatch fuel a s caps fun s2 caps2 =>
        match k s2 caps2 with
        | some out => some out
        | none => reMatch fuel (.plusL a) s2 caps2 k
    | .optG a =>
      match reMatch fuel a s caps k with
      | some out => some out
      | none => k s caps
    | .grp n a =>
      reMatch fuel a s caps fun s2 caps2 =>
        k s2 ((n, s.take (s.length - s2.length)) :: caps2)

/-- Fuel amply covering the matcher's recursion depth for regex `r` on `s`. -/
def reFuel (r : RE) (s : List Char) : Nat := (reSize r + 2) * (s.length + 2)

/-- `re.match` anchored also at the end of input.  All header patterns end in
`(.*)$`, and transcript lines contain no newline, so `pat.match(line)` succeeds
exactly when this full match does. -/
def reFullMatch (r : RE) (s : List Char) : Option Caps :=
  reMatch (reFuel r s) r s [] fun rest caps =>
    if rest.isEmpty then some caps else none

/-- `re.match` without the end anchor: yields captures and remaining input of
the leftmost-preference match at the start of `s`. -/
def reStartMatch (r : RE) (s : List Char) : Option (Caps × List Char) :=
  reMatch (reFuel r s) r s [] fun rest caps => some (caps, rest)

/-- Look up a capture group (most recent assignment wins). -/
def getGrp (n : Nat) (caps : Caps) : List Char :=
  match caps.find? (fun p => p.1 = n) with
  | some p => p.2
  | none => []

/-! ### Regex building blocks mirroring the Python pattern syntax -/

/-- A literal character. -/
def rchar (c : Char) : RE := .cls (· = c)

/-- A case-insensitive literal character (for patterns compiled with
`re.IGNORECASE`). -/
def rcharCI (c : Char) : RE := .cls (fun x => x.toLower = c.toLower)

/-- A literal string. -/
def rstr (s : List Char) : RE := s.foldr (fun c r => .cat (rchar c) r) .eps

/-- A case-insensitive literal string. -/
def rstrCI (s : List Char) : RE := s.foldr (fun c r => .cat (rcharCI c) r) .eps

/-- `\d`. -/
def rdigit : RE := .cls pyIsDigit

/-- `\s`. -/
def rspace : RE := .cls pyIsSpace

/-- `\s*`. -/
def wsStar : RE := .starG rspace

/-- `\s+`. -/
def wsPlus : RE := .plusG rspace

/-- `\d{1,2}` (greedy: two digits preferred). -/
def d12 : RE := .cat rdigit (.optG rdigit)

/-- `\d{2}`. -/
def d2 : RE := .cat rdigit rdigit

/-- `\d{4}`. -/
def d4 : RE := .cat d2 d2

/-- `\d{2,4}` (greedy: 4, then 3, then 2). -/
def d24 : RE := .cat d2 (.optG (.cat rdigit (.optG rdigit)))

/-- `\d{8}`. -/
def d8 : RE := .cat d4 d4

/-- `[\/\.\-]` — the date separators. -/
def dateSep : RE := .cls fun c => c = '/' || c = '.' || c = '-'

/-- `\d{1,2}[\/\.\-]\d{1,2}[\/\.\-]\d{2,4}` — date with 2-to-4-digit year. -/
def dateRE24 : RE := .cat d12 (.cat dateSep (.cat d12 (.cat dateSep d24)))

/-- `\d{1,2}[\/\.\-]\d{1,2}[\/\.\-]\d{2}` — date with exactly-2-digit year. -/
def dateRE2 : RE := .cat d12 (.cat dateSep (.cat d12 (.cat dateSep d2)))

/-- `\d{1,2}:\d{2}(?::\d{2})?` — time, optional seconds. -/
def timeRE : RE :=
  .cat d12 (.cat (rchar ':') (.cat d2 (.optG (.cat (rchar ':') d2))))

/-- `\d{1,2}:\d{2}:\d{2}` — time with mandatory seconds. -/
def timeSecRE : RE :=
  .cat d12 (.cat (rchar ':') (.cat d2 (.cat (rchar ':') d2)))

/-- `(?:AM|PM|am|pm)` — exact-case alternation, in pattern order. -/
def ampmRE : RE :=
  .alt (rstr ['A', 'M']) (.alt (rstr ['P', 'M'])
    (.alt (rstr ['a', 'm']) (rstr ['p', 'm'])))

/-- `[–—-]` — the dash separating timestamp from author. -/
def dashSep : RE := .cls fun c => c = '\u2013' || c = '\u2014' || c = '-'

/-- `([^:]+?)\s*:\s` — lazy author capture (group 3), optional space, colon,
one whitespace; followed by `(.*)$` — body capture (group 4). -/
def authorBodyRE : RE :=
  .cat (.grp 3 (.plusL (.cls (· ≠ ':'))))
    (.cat wsStar (.cat (rchar ':') (.cat rspace
      (.grp 4 (.starG (.cls (· ≠ '\n')))))))

/-- Concatenation of a list of regexes. -/
def rcats (rs : List RE) : RE := rs.foldr .cat .eps

/-- Pattern 1: `^\[(\d{1,2}[\/\.\-]\d{1,2}[\/\.\-]\d{2,4})\s+(\d{1,2}:\d{2}(?::\d{2})?)\]\s+([^:]+?)\s*:\s(.*)$`. -/
def pat1 : RE :=
  rcats [rchar '[', .grp 1 dateRE24, wsPlus, .grp 2 timeRE, rchar ']', wsPlus,
    authorBodyRE]

/-- Pattern 2: like pattern 1 but the time group carries `\s*(?:AM|PM|am|pm)`. -/
def pat2 : RE :=
  rcats [rchar '[', .grp 1 dateRE24, wsPlus,
    .grp 2 (rcats [timeRE, wsStar, ampmRE]), rchar ']', wsPlus, authorBodyRE]

/-- Pattern 3: `^(\d{1,2}[\/\.\-]\d{1,2}[\/\.\-]\d{2,4}),\s*(\d{1,2}:\d{2}(?::\d{2})?)\s*[–—-]\s*([^:]+?)\s*:\s(.*)$`. -/
def pat3 : RE :=
  rcats [.grp 1 dateRE24, rchar ',', wsStar, .grp 2 timeRE, wsStar, dashSep,
    wsStar, authorBodyRE]

/-- Pattern 4: like pattern 3 but with an exactly-2-digit year. -/
def pat4 : RE :=
  rcats [.grp 1 dateRE2, rchar ',', wsStar, .grp 2 timeRE, wsStar, dashSep,
    wsStar, authorBodyRE]

/-- Pattern 5: `^(\d{1,2}[\/\.\-]\d{1,2}[\/\.\-]\d{2,4})\s+(\d{1,2}:\d{2}:\d{2})\s+([^:]+?)\s*:\s(.*)$`. -/
def pat5 : RE :=
  rcats [.grp 1 dateRE24, wsPlus, .grp 2 timeSecRE, wsPlus, authorBodyRE]

/-- `DATE_TIME_PATTERNS`: the ordered pattern list with its (unused by the
parser, but kept for fidelity) `strptime` format strings. -/
def DATE_TIME_PATTERNS : List (RE × String) :=
  [(pat1, "%d/%m/%Y %H:%M:%S"),
   (pat2, "%d/%m/%Y %I:%M:%S %p"),
   (pat3, "%d/%m/%Y %H:%M:%S"),
   (pat4, "%d/%m/%y %H:%M:%S"),
   (pat5, "%d/%m/%Y %H:%M:%S")]

/-- Whether pattern `i` of `DATE_TIME_PATTERNS` matches the line. -/
def patMatches (i : Nat) (line : List Char) : Bool :=
  match DATE_TIME_PATTERNS.get? i with
  | some pr => (reFullMatch pr.1 line).isSome
  | none => false

/-- The classifier's per-line loop: try the patterns in order, first match
wins; on a match return the four capture groups
`(date_part, time_part, author, text)`. -/
def classifyGo : List (RE × String) → List Char →
    Option (List Char × List Char × List Char × List Char)
  | [], _ => none
  | pr :: rest, line =>
    match reFullMatch pr.1 line with
    | some caps =>
        some (getGrp 1 caps, getGrp 2 caps, getGrp 3 caps, getGrp 4 caps)
    | none => classifyGo rest line

/-- Classify a (already normalized) line against `DATE_TIME_PATTERNS`. -/
def classifyLine (line : List Char) :
    Option (List Char × List Char × List Char × List Char) :=
  classifyGo DATE_TIME_PATTERNS line


/-! ## `datetime` values and `strptime`

`PyDateTime` models `datetime.datetime` (microseconds are always zero in this
program).  Comparison is lexicographic on the fields, as in Python. -/

structure PyDateTime where
  year : Nat
  month : Nat
  day : Nat
  hour : Nat
  minute : Nat
  second : Nat
deriving DecidableEq, Repr

/-- Lexicographic `≤` on numeric lists. -/
def lexLe : List Nat → List Nat → Bool
  | [], _ => true
  | _ :: _, [] => false
  | a :: as, b :: bs => if a < b then true else if b < a then false else lexLe as bs

/-- The comparison key of a datetime. -/
def PyDateTime.key (d : PyDateTime) : List Nat :=
  [d.year, d.month, d.day, d.hour, d.minute, d.second]

/-- Python `datetime <= datetime`. -/
def PyDateTime.le (a b : PyDateTime) : Bool := lexLe a.key b.key

/-- Python `datetime.date()`, as the (year, month, day) triple. -/
def PyDateTime.date (d : PyDateTime) : Nat × Nat × Nat := (d.year, d.month, d.day)

/-- Gregorian leap year, as in `datetime`. -/
def isLeapYear (y : Nat) : Bool := y % 4 = 0 && (y % 100 ≠ 0 || y % 400 = 0)

/-- Days in a month, as in `datetime`. -/
def daysInMonth (y m : Nat) : Nat :=
  if m = 2 then (if isLeapYear y then 29 else 28)
  else if m = 4 || m = 6 || m = 9 || m = 11 then 30
  else 31

/-- The `datetime.datetime` constructor's range validation (raises on
violation, which `strptime` propagates as a parse failure). -/
def mkPyDateTime (y mo d h mi s : Nat) : Option PyDateTime :=
  if 1 ≤ y && y ≤ 9999 && 1 ≤ mo && mo ≤ 12 && 1 ≤ d && d ≤ daysInMonth y mo
      && h ≤ 23 && mi ≤ 59 && s ≤ 59 then
    some ⟨y, mo, d, h, mi, s⟩
  else none

/-- The `strptime` format directives used by the program, plus literal
characters and format-string whitespace (which CPython turns into `\s+`). -/
inductive FmtTok where
  | lit : Char → FmtTok
  | ws : FmtTok
  | dY : FmtTok
  | dy : FmtTok
  | dm : FmtTok
  | dd : FmtTok
  | dH : FmtTok
  | dI : FmtTok
  | dM : FmtTok
  | dS : FmtTok
  | dp : FmtTok

/-- Character range class. -/
def rng (lo hi : Char) : RE := .cls fun c => lo ≤ c && c ≤ hi

/-- CPython `_strptime.TimeRE` sub-regex for each directive, wrapped in its
capture group (1=%Y, 2=%y, 3=%m, 4=%d, 5=%H, 6=%I, 7=%M, 8=%S, 9=%p); the
alternation order is CPython's. -/
def dirRE : FmtTok → RE
  | .lit c => rchar c
  | .ws => wsPlus
  | .dY => .grp 1 (rcats [rdigit, rdigit, rdigit, rdigit])
  | .dy => .grp 2 (.cat rdigit rdigit)
  | .dm => .grp 3 (.alt (.cat (rchar '1') (rng '0' '2'))
      (.alt (.cat (rchar '0') (rng '1' '9')) (rng '1' '9')))
  | .dd => .grp 4 (.alt (.cat (rchar '3') (rng '0' '1'))
      (.alt (.cat (rng '1' '2') rdigit)
        (.alt (.cat (rchar '0') (rng '1' '9')) (rng '1' '9'))))
  | .dH => .grp 5 (.alt (.cat (rchar '2') (rng '0' '3'))
      (.alt (.cat (rng '0' '1') rdigit) rdigit))
  | .dI => .grp 6 (.alt (.cat (rchar '1') (rng '0' '2'))
      (.alt (.cat (rchar '0') (rng '1' '9')) (rng '1' '9')))
  | .dM => .grp 7 (.alt (.cat (rng '0' '5') rdigit) rdigit)
  | .dS => .grp 8 (.alt (.cat (rchar '6') (rng '0' '1'))
      (.alt (.cat (rng '0' '5') rdigit) rdigit))
  | .dp => .grp 9 (.alt (rstrCI ['A', 'M']) (rstrCI ['P', 'M']))

/-- Decimal digits to a natural number. -/
def digitsToNat (s : List Char) : Nat :=
  s.foldl (fun acc c => acc * 10 + (c.toNat - '0'.toNat)) 0

/-- Numeric value of a capture group, when present. -/
def capNat (n : Nat) (caps : Caps) : Option Nat :=
  (caps.find? (fun p => p.1 = n)).map fun p => digitsToNat p.2

/-- CPython `_strptime` post-processing: field defaults, the `%y` century
rule (≤ 68 → 2000s), the `%I`/`%p` hour adjustment (missing or AM indicator
with hour 12 → 0; PM with hour ≠ 12 → +12), then `datetime` validation. -/
def strptimeBuild (caps : Caps) : Option PyDateTime :=
  let year :=
    match capNat 1 caps with
    | some y => y
    | none =>
      match capNat 2 caps with
      | some yy => if yy ≤ 68 then 2000 + yy else 1900 + yy
      | none => 1900
  let month := (capNat 3 caps).getD 1
  let day := (capNat 4 caps).getD 1
  let hour :=
    match capNat 5 caps with
    | some h => h
    | none =>
      match capNat 6 caps with
      | some h12 =>
        if pyUpper (getGrp 9 caps) = ['P', 'M'] then
          (if h12 = 12 then 12 else h12 + 12)
        else
          (if h12 = 12 then 0 else h12)
      | none => 0
  let minute := (capNat 7 caps).getD 0
  let second := (capNat 8 caps).getD 0
  mkPyDateTime year month day hour minute second

/-- `datetime.strptime(s, fmt)`: the whole input must be consumed
("unconverted data remains" otherwise), then the fields are assembled and
validated. -/
def strptime (fmt : List FmtTok) (s : List Char) : Option PyDateTime :=
  match reFullMatch (rcats (fmt.map dirRE)) s with
  | some caps => strptimeBuild caps
  | none => none

/-- Build the format token list for one of `parse_datetime`'s 16 format
strings, e.g. `fmtTokens true true true false = "%d/%m/%Y %H:%M:%S"`. -/
def fmtTokens (dayFirst y4 seconds ampm : Bool) : List FmtTok :=
  (if dayFirst then [FmtTok.dd, .lit '/', .dm] else [FmtTok.dm, .lit '/', .dd]) ++
  [.lit '/', if y4 then FmtTok.dY else .dy, .ws,
   if ampm then FmtTok.dI else .dH, .lit ':', .dM] ++
  (if seconds then [FmtTok.lit ':', .dS] else []) ++
  (if ampm then [FmtTok.ws, .dp] else [])

/-- The `fmts` list of `parse_datetime`, in source order: eight 24-hour
formats (day-first then month-first, 4- then 2-digit year, with then without
seconds), then the eight 12-hour AM/PM analogues. -/
def PARSE_FMTS : List (List FmtTok) :=
  [fmtTokens true true true false, fmtTokens true true false false,
   fmtTokens true false true false, fmtTokens true false false false,
   fmtTokens false true true false, fmtTokens false true false false,
   fmtTokens false false true false, fmtTokens false false false false,
   fmtTokens true true true true, fmtTokens true true false true,
   fmtTokens true false true true, fmtTokens true false false true,
   fmtTokens false true true true, fmtTokens false true false true,
   fmtTokens false false true true, fmtTokens false false false true]

/-- The `for f in fmts: try ... except: continue` loop: first successful
format wins. -/
def tryFmts : List (List FmtTok) → List Char → Option PyDateTime
  | [], _ => none
  | f :: fs, s =>
    match strptime f s with
    | some d => some d
    | none => tryFmts fs s

/-- `parse_datetime(date_str, time_str)`: normalize separators and spaces,
then try each candidate format until one parses. -/
def parse_datetime (date_str time_str : String) : Option PyDateTime :=
  let d_norm := pyStrip (pyReplaceChar (pyReplaceChar
      (date_str.data.map fun c => if c = '.' || c = '-' then '/' else c)
      '\u00a0' ' ') '\u202f' ' ')
  let t_norm := pyUpper (pyStrip (pyReplaceChar
      (pyReplaceChar time_str.data '\u00a0' ' ') '\u202f' ' '))
  tryFmts PARSE_FMTS (d_norm ++ ' ' :: t_norm)


/-! ## Data model and transcript parsing -/

/-- `Attachment` (the `kind` strings are `"image"/"video"/"audio"/"doc"`). -/
structure Attachment where
  relpath : String
  kind : String
  filename : String
deriving DecidableEq, Repr

/-- `Message`. -/
structure Message where
  timestamp : PyDateTime
  author : String
  text : String
  attachments : List Attachment
deriving DecidableEq, Repr

/-- The sort key comparison `key=lambda m: m.timestamp` (Python's stable sort
by key coincides with a stable merge sort under `≤` on keys). -/
def msgLe (a b : Message) : Bool := PyDateTime.le a.timestamp b.timestamp

/-- `Conversation` (`base_dir` is the extracted-archive directory path). -/
structure Conversation where
  chat_id : String
  title : String
  messages : List Message
  base_dir : String
deriving Repr

/-- Per-line normalization (line 176 of the source): remove the left-to-right
mark U+200E, replace NBSP U+00A0 and NNBSP U+202F by plain spaces, strip. -/
def normalizeLine (raw : List Char) : List Char :=
  pyStrip (pyReplaceChar (pyReplaceChar (pyDeleteChar raw '\u200e')
    '\u00a0' ' ') '\u202f' ' ')

/-- The parser's per-line loop (lines 174-194): a classified header closes the
current message (if any) and opens a new one, with `parse_datetime` falling
back to the current wall-clock time `now`; an unclassified line is appended to
the current message's body after a newline, or discarded when no message has
been opened yet; at end of stream the current message is emitted. -/
def emitLoop (now : PyDateTime) : List (List Char) → Option Message → List Message
  | [], cur =>
    match cur with
    | some c => [c]
    | none => []
  | raw :: rest, cur =>
    let line := normalizeLine raw
    match classifyLine line with
    | some (datePart, timePart, author, text) =>
      let ts := (parse_datetime ⟨datePart⟩ ⟨timePart⟩).getD now
      let next : Message := ⟨ts, pyStripS ⟨author⟩, pyStripS ⟨text⟩, []⟩
      match cur with
      | some c => c :: emitLoop now rest (some next)
      | none => emitLoop now rest (some next)
    | none =>
      match cur with
      | some c => emitLoop now rest (some { c with text := c.text ++ "\n" ++ ⟨line⟩ })
      | none => emitLoop now rest none

/-- `re.sub(r"^" + prefix + r"\s+", "", name, flags=IGNORECASE)`: drop a
case-insensitive literal prefix together with the (maximal) run of whitespace
that must follow it. -/
def stripTitleMark (pre : List Char) (s : List Char) : List Char :=
  if listStartsWith (pyLower pre) (pyLower s) then
    match s.drop pre.length with
    | c :: cs => if pyIsSpace c then (c :: cs).dropWhile pyIsSpace else s
    | [] => s
  else s

/-- `detect_title_from_txtname`: strip the two export prefixes, replace
underscores by spaces, default to `"WhatsApp Chat"` when empty. -/
def detect_title_from_txtname (stem : String) : String :=
  let n1 := stripTitleMark "WhatsApp Chat with".data stem.data
  let n2 := stripTitleMark "Discussion WhatsApp avec".data n1
  let n3 := pyReplaceChar n2 '_' ' '
  if n3.isEmpty then "WhatsApp Chat" else ⟨n3⟩

/-- The decode loop of `parse_chat_text` (lines 160-166): try `utf-8-sig`,
`utf-16`, `utf-8` in that order; the arguments are the respective decode
results of the transcript bytes (`none` models a raised `UnicodeError`). -/
def firstDecode (decUtf8Sig decUtf16 decUtf8 : Option String) : Option String :=
  match decUtf8Sig with
  | some d => some d
  | none =>
    match decUtf16 with
    | some d => some d
    | none => decUtf8

/-- `parse_chat_text`: decode (hard error when all three encodings fail),
derive the title from the transcript file's stem, run the line loop, and
return the messages sorted by timestamp (Python's list sort is a stable merge
sort). -/
def parse_chat_text (now : PyDateTime) (stem : String)
    (decUtf8Sig decUtf16 decUtf8 : Option String) :
    Except String (String × List Message) :=
  match firstDecode decUtf8Sig decUtf16 decUtf8 with
  | none => Except.error "Impossible de lire"
  | some data =>
    let title := detect_title_from_txtname stem
    let messages := emitLoop now (pySplitlines data.data) none
    Except.ok (title, messages.mergeSort msgLe)

/-- The conversation merge for a colliding `chat_id` (lines 334-336):
concatenate the message lists and re-sort by timestamp. -/
def mergeConversations (a b : Conversation) : Conversation :=
  { a with messages := (a.messages ++ b.messages).mergeSort msgLe }


/-! ## Media catalog and attachment linking -/

/-- `MEDIA_EXTS` in source (insertion) order. -/
def MEDIA_EXTS : List (String × List String) :=
  [("image", [".jpg", ".jpeg", ".png", ".gif", ".webp", ".heic"]),
   ("video", [".mp4", ".3gp", ".mov", ".avi", ".mkv", ".m4v"]),
   ("audio", [".opus", ".ogg", ".mp3", ".wav", ".m4a"]),
   ("doc", [".pdf", ".txt", ".vcf", ".csv", ".doc", ".docx", ".xls", ".xlsx", ".zip"])]

/-- The final path component (after the last `/`). -/
def pathName (p : List Char) : List Char :=
  (p.reverse.takeWhile (· ≠ '/')).reverse

/-- `pathlib.Path.suffix`: the extension including the dot, empty when the
name has no dot, a leading dot only, or a trailing dot. -/
def pathSuffix (p : List Char) : List Char :=
  let name := pathName p
  let revExt := name.reverse.takeWhile (· ≠ '.')
  if revExt.length = name.length then []
  else if revExt.length = 0 then []
  else if name.length ≥ revExt.length + 2 then '.' :: revExt.reverse
  else []

/-- `classify_ext`: first media kind whose extension set contains the
lower-cased suffix, defaulting to `"doc"`. -/
def classify_ext (path : String) : String :=
  let ext : String := ⟨pyLower (pathSuffix path.data)⟩
  match MEDIA_EXTS.find? (fun ke => ke.2.contains ext) with
  | some ke => ke.1
  | none => "doc"

/-- `MEDIA_OMITTED_TOKENS` (a Python set; only membership is ever used, so the
iteration order of this list is immaterial). -/
def MEDIA_OMITTED_TOKENS : List String :=
  ["<Media omitted>", "<Média omis>", "<Média omise>", "image omitted",
   "video omitted", "image omise", "video omise"]

/-- `[A-Za-z0-9_-]`. -/
def alnumDash : RE :=
  .cls fun c => ('A' ≤ c && c ≤ 'Z') || ('a' ≤ c && c ≤ 'z') || c.isDigit ||
    c = '_' || c = '-'

/-- `[A-Za-z0-9]`. -/
def asciiAlnum : RE :=
  .cls fun c => ('A' ≤ c && c ≤ 'Z') || ('a' ≤ c && c ≤ 'z') || c.isDigit

/-- `r{1,5}` (greedy). -/
def upTo5 (r : RE) : RE :=
  .cat r (.optG (.cat r (.optG (.cat r (.optG (.cat r (.optG r)))))))

/-- `filename_pat = ([A-Za-z0-9_-]+-\d{8}-WA\d+\.[A-Za-z0-9]{1,5})`. -/
def filename_pat : RE :=
  .grp 1 (rcats [.plusG alnumDash, rchar '-', d8, rchar '-', rstr "WA".data,
    .plusG rdigit, rchar '.', upTo5 asciiAlnum])

/-- Right-nested alternation preserving the listed order. -/
def ralts : List RE → RE
  | [] => .eps
  | [r] => r
  | r :: rs => .alt r (ralts rs)

/-- `[\w.\-]`. -/
def wordDotDash : RE := .cls fun c => pyIsWord c || c = '.' || c = '-'

/-- The extension alternation of `generic_file_pat`, in source order
(compiled with `re.IGNORECASE`). -/
def extAlts : RE :=
  ralts [rstrCI "jpg".data, rstrCI "jpeg".data, rstrCI "png".data,
    rstrCI "gif".data, rstrCI "mp4".data, rstrCI "3gp".data, rstrCI "mov".data,
    rstrCI "avi".data, rstrCI "mkv".data, rstrCI "m4v".data, rstrCI "opus".data,
    rstrCI "ogg".data, rstrCI "mp3".data, rstrCI "wav".data, rstrCI "m4a".data,
    rstrCI "pdf".data, rstrCI "webp".data, rstrCI "heic".data,
    .cat (rstrCI "doc".data) (.optG (rcharCI 'x')),
    .cat (rstrCI "xls".data) (.optG (rcharCI 'x')),
    rstrCI "zip".data]

/-- `generic_file_pat = ([\w.\-]+\.(?:jpg|jpeg|...|docx?|xlsx?|zip))`,
`re.IGNORECASE`. -/
def generic_file_pat : RE :=
  .grp 1 (rcats [.plusG wordDotDash, rchar '.', extAlts])

/-- `.` (any character but newline). -/
def dotAny : RE := .cls (· ≠ '\n')

/-- `date_from_name = .*-(\d{8})-WA\d+\.[A-Za-z0-9]{1,5}$` (used with
`.match`, hence anchored at both ends). -/
def date_from_name : RE :=
  rcats [.starG dotAny, rchar '-', .grp 1 d8, rchar '-', rstr "WA".data,
    .plusG rdigit, rchar '.', upTo5 asciiAlnum]

/-- `re.finditer` scan returning each match's group 1, left to right,
non-overlapping, continuing at each match's end. -/
def reFindIterGo (r : RE) : Nat → List Char → List (List Char)
  | 0, _ => []
  | _ + 1, [] => []
  | fuel + 1, s@(_ :: tail) =>
    match reStartMatch r s with
    | some (caps, rest) =>
      getGrp 1 caps ::
        reFindIterGo r fuel (if rest.length < s.length then rest else tail)
    | none => reFindIterGo r fuel tail

def reFindIter (r : RE) (s : List Char) : List (List Char) :=
  reFindIterGo r (s.length + 1) s

/-- The `files_in_text` set of the linker's first pass: all group-1 matches of
`filename_pat` and `generic_file_pat` over the message body, de-duplicated
(Python iterates this as a set; the claims below are insensitive to the
iteration order, fixed here as first-occurrence order). -/
def extractFilesInText (text : String) : List String :=
  (((reFindIter filename_pat text.data) ++ (reFindIter generic_file_pat text.data)).map
    fun l => (⟨l⟩ : String)).eraseDups

/-- The media catalog: `media_files` as (bare filename, path relative to the
conversation's base directory) in insertion order; filenames are unique (the
`rglob` build keeps one path per name). -/
abbrev Catalog := List (String × String)

/-- `media_files.get(fname)`. -/
def mediaLookup (cat : Catalog) (f : String) : Option String :=
  (cat.find? fun e => e.1 = f).map Prod.snd

/-- `Attachment(str(p.relative_to(conv.base_dir)), classify_ext(p), fname)`. -/
def mkAttachment (relpath fname : String) : Attachment :=
  ⟨relpath, classify_ext relpath, fname⟩

/-- The inner loop of linker pass 1: for each referenced filename, attach it
when it is catalogued and not yet assigned, marking it assigned. -/
def attachFiles (cat : Catalog) : List String → List Attachment → List String →
    List Attachment × List String
  | [], atts, asg => (atts, asg)
  | f :: fs, atts, asg =>
    match mediaLookup cat f with
    | some p =>
      if asg.contains f then attachFiles cat fs atts asg
      else attachFiles cat fs (atts ++ [mkAttachment p f]) (f :: asg)
    | none => attachFiles cat fs atts asg

/-- Linker pass 1 (textual references), over messages in order, threading the
`assigned` state. -/
def linkPass1 (cat : Catalog) : List Message → List String →
    List Message × List String
  | [], asg => ([], asg)
  | m :: ms, asg =>
    let r := attachFiles cat (extractFilesInText m.text) m.attachments asg
    let rest := linkPass1 cat ms r.2
    ({ m with attachments := r.1 } :: rest.1, rest.2)

/-- The eligibility test of pass 2: body empty after stripping, or containing
one of the placeholder tokens case-insensitively as a substring. -/
def placeholderEligible (text : String) : Bool :=
  let text_l := pyLower (pyStrip text.data)
  text_l.isEmpty ||
    MEDIA_OMITTED_TOKENS.any fun tok => pySubstr (pyLower tok.data) text_l

/-- The date a capture-file name encodes:
`strptime(group(1) of date_from_name, "%Y%m%d").date()`. -/
def fnameDate (fname : String) : Option (Nat × Nat × Nat) :=
  match reFullMatch date_from_name fname.data with
  | some caps =>
    (strptime [FmtTok.dY, FmtTok.dm, FmtTok.dd] (getGrp 1 caps)).map
      PyDateTime.date
  | none => none

/-- The catalog scan of pass 2: the first entry (in insertion order) that is
unassigned and whose filename encodes the message's date. -/
def fallbackScan (cat : Catalog) (asg : List String) (d : Nat × Nat × Nat) :
    Option (String × String) :=
  cat.find? fun e => !(asg.contains e.1) && fnameDate e.1 == some d

/-- Linker pass 2 (placeholder/date fallback): only for messages still without
attachments, attach at most the first date-matching unassigned entry. -/
def linkPass2 (cat : Catalog) : List Message → List String →
    List Message × List String
  | [], asg => ([], asg)
  | m :: ms, asg =>
    if m.attachments.isEmpty && placeholderEligible m.text then
      match fallbackScan cat asg m.timestamp.date with
      | some fp =>
        let rest := linkPass2 cat ms (fp.1 :: asg)
        ({ m with attachments := m.attachments ++ [mkAttachment fp.2 fp.1] } ::
          rest.1, rest.2)
      | none =>
        let rest := linkPass2 cat ms asg
        (m :: rest.1, rest.2)
    else
      let rest := linkPass2 cat ms asg
      (m :: rest.1, rest.2)

/-- `link_attachments`: both passes, starting from an all-unassigned catalog. -/
def link_attachments (cat : Catalog) (conv : Conversation) : Conversation :=
  let p1 := linkPass1 cat conv.messages []
  let p2 := linkPass2 cat p1.1 p1.2
  { conv with messages := p2.1 }


/-- The number of patterns of `DATE_TIME_PATTERNS` matching a line. -/
def matchingPatternCount (line : List Char) : Nat :=
  (DATE_TIME_PATTERNS.filter fun pr => (reFullMatch pr.1 line).isSome).length

/-- The header-group extraction applied to a single pattern. -/
def classifyWith (r : RE) (line : List Char) :
    Option (List Char × List Char × List Char × List Char) :=
  (reFullMatch r line).map fun caps =>
    (getGrp 1 caps, getGrp 2 caps, getGrp 3 caps, getGrp 4 caps)

/-- Every character class of the regex implies `P`: any character the regex
consumes satisfies `P`. -/
def ClsSub (P : Char → Prop) : RE → Prop
  | .eps => True
  | .cls q => ∀ c, q c = true → P c
  | .cat a b => ClsSub P a ∧ ClsSub P b
  | .alt a b => ClsSub P a ∧ ClsSub P b
  | .starG a => ClsSub P a
  | .plusG a => ClsSub P a
  | .plusL a => ClsSub P a
  | .optG a => ClsSub P a
  | .grp _ a => ClsSub P a

/-- Per-group character bounds: the body of each capture group `n` consumes
only characters satisfying `Φ n`. -/
def GrpsOk (Φ : Nat → Char → Prop) : RE → Prop
  | .eps => True
  | .cls _ => True
  | .cat a b => GrpsOk Φ a ∧ GrpsOk Φ b
  | .alt a b => GrpsOk Φ a ∧ GrpsOk Φ b
  | .starG a => GrpsOk Φ a
  | .plusG a => GrpsOk Φ a
  | .plusL a => GrpsOk Φ a
  | .optG a => GrpsOk Φ a
  | .grp n a => GrpsOk Φ a ∧ ClsSub (Φ n) a

/-- All recorded captures respect the per-group bounds. -/
def CapsOk (Φ : Nat → Char → Prop) (caps : Caps) : Prop :=
  ∀ p ∈ caps, ∀ c ∈ p.2, Φ p.1 c

/-- The per-group bound of the header patterns relevant to author extraction:
group 3 (the author) consumes no colon. -/
def authorCharOk : Nat → Char → Prop := fun n c => n = 3 → c ≠ ':'

/-- Number of attachments with the given filename. -/
def countFile (f : String) (atts : List Attachment) : Nat :=
  (atts.filter fun a => a.filename = f).length

/-- The filenames attached to a message. -/
def attachedFiles (m : Message) : List String :=
  m.attachments.map Attachment.filename

/-- Total number of attachments with the given filename across a message
list. -/
def totalFileCount (f : String) (ms : List Message) : Nat :=
  (ms.map fun m => countFile f m.attachments).sum

/-! ## Order lemmas for the timestamp comparison -/

theorem lexLe_refl (a : List Nat) : lexLe a a = true := by
  induction a with
  | nil => rfl
  | cons x xs ih => simp [lexLe, ih]

theorem lexLe_trans :
    ∀ a b c : List Nat, lexLe a b = true → lexLe b c = true → lexLe a c = true := by
  intro a
  induction a with
  | nil => intro b c h1 h2; rfl
  | cons x xs ih =>
    intro b c h1 h2
    cases b with
    | nil => simp [lexLe] at h1
    | cons y ys =>
      cases c with
      | nil => simp [lexLe] at h2
      | cons z zs =>
        simp only [lexLe] at h1 h2 ⊢
        split_ifs at h1 h2 ⊢ <;>
          first
          | rfl
          | omega
          | exact ih ys zs h1 h2

theorem lexLe_total (a b : List Nat) : lexLe a b || lexLe b a := by
  induction a generalizing b with
  | nil => simp [lexLe]
  | cons x xs ih =>
    cases b with
    | nil => simp [lexLe]
    | cons y ys =>
      simp only [lexLe]
      rcases Nat.lt_trichotomy x y with h | h | h
      · simp [h]
      · subst h
        simpa using ih ys
      · simp [h, Nat.not_lt.mpr (Nat.le_of_lt h), Nat.lt_irrefl]

theorem msgLe_trans (a b c : Message) :
    msgLe a b = true → msgLe b c = true → msgLe a c = true :=
  lexLe_trans _ _ _

theorem msgLe_total (a b : Message) : msgLe a b || msgLe b a :=
  lexLe_total _ _

theorem msgLe_of_eq_ts (a b : Message) (h : a.timestamp = b.timestamp) :
    msgLe a b = true := by
  simp [msgLe, PyDateTime.le, h, lexLe_refl]

/-! ## Claim theorems -/

/-- C2: messages in a conversation are sorted non-decreasingly by timestamp
after every order-disturbing operation: (1) `parse_chat_text` returns its
message list sorted; (2) the sort is stable — two emitted messages with equal
timestamps keep their emission order in the sorted output; (3) merging two
conversations with the same derived id (concatenate, re-sort) yields a sorted
list; (4) concretely, merging A (messages at t1 < t3) with B (message at t2,
t1 < t2 < t3) yields order t1, t2, t3. -/
theorem c2_sorted_invariant :
    (∀ now stem d1 d2 d3 title msgs,
        parse_chat_text now stem d1 d2 d3 = Except.ok (title, msgs) →
        msgs.Pairwise fun a b => msgLe a b = true)
    ∧ (∀ now lines m1 m2,
        [m1, m2].Sublist (emitLoop now lines none) →
        m1.timestamp = m2.timestamp →
        [m1, m2].Sublist ((emitLoop now lines none).mergeSort msgLe))
    ∧ (∀ a b : Conversation, a.chat_id = b.chat_id →
        (mergeConversations a b).messages.Pairwise fun x y => msgLe x y = true)
    ∧ (mergeConversations
        ⟨"id", "t", [⟨⟨2024, 3, 5, 10, 0, 0⟩, "A", "x", []⟩,
          ⟨⟨2024, 3, 5, 12, 0, 0⟩, "A", "z", []⟩], "d"⟩
        ⟨"id", "t", [⟨⟨2024, 3, 5, 11, 0, 0⟩, "B", "y", []⟩], "d"⟩).messages =
      [⟨⟨2024, 3, 5, 10, 0, 0⟩, "A", "x", []⟩,
       ⟨⟨2024, 3, 5, 11, 0, 0⟩, "B", "y", []⟩,
       ⟨⟨2024, 3, 5, 12, 0, 0⟩, "A", "z", []⟩] := by
  refine ⟨?_, ?_, ?_, ?_⟩
  · intro now stem d1 d2 d3 title msgs h
    unfold parse_chat_text at h
    cases hfd : firstDecode d1 d2 d3 with
    | none => rw [hfd] at h; exact absurd h (by simp)
    | some data =>
      rw [hfd] at h
      simp only [Except.ok.injEq, Prod.mk.injEq] at h
      rw [← h.2]
      exact List.sorted_mergeSort msgLe_trans msgLe_total _
  · intro now lines m1 m2 hsub hts
    refine List.sublist_mergeSort msgLe_trans msgLe_total ?_ hsub
    exact List.pairwise_pair.mpr (msgLe_of_eq_ts m1 m2 hts)
  · intro a b _
    exact List.sorted_mergeSort msgLe_trans msgLe_total _
  · show (List.mergeSort (_ ++ _) msgLe) = _
    simp only [List.cons_append, List.nil_append]
    rw [List.mergeSort]
    simp +decide [List.splitInTwo, List.mergeSort, List.merge]

/-- Closed instance of `c2_sorted_invariant`: its merge conjunct applied to two
concrete single-message conversations with equal ids. -/
theorem c2_sorted_invariant_witness :
    (mergeConversations ⟨"id", "t", [⟨⟨2024, 3, 5, 12, 0, 0⟩, "A", "x", []⟩], "d"⟩
        ⟨"id", "t", [⟨⟨2024, 3, 5, 11, 0, 0⟩, "B", "y", []⟩], "d"⟩).messages.Pairwise
      (fun x y => msgLe x y = true) :=
  c2_sorted_invariant.2.2.1
    ⟨"id", "t", [⟨⟨2024, 3, 5, 12, 0, 0⟩, "A", "x", []⟩], "d"⟩
    ⟨"id", "t", [⟨⟨2024, 3, 5, 11, 0, 0⟩, "B", "y", []⟩], "d"⟩ rfl

/-- C3: continuation accumulation — a header line H1 followed by two
unclassified lines L1, L2, then header H2, parses to two messages, the first
of which has body `strip(text(H1)) + "\n" + normalize(L1) + "\n" +
normalize(L2)`; an unclassified line before any header is discarded entirely;
and membership in `parse_chat_text`'s sorted output coincides with membership
in the emission-ordered list. -/
theorem c3_continuation_accumulation :
    (∀ now h1 l1 l2 h2 d1 t1 a1 b1 d2 t2 a2 b2,
        classifyLine (normalizeLine h1) = some (d1, t1, a1, b1) →
        classifyLine (normalizeLine l1) = none →
        classifyLine (normalizeLine l2) = none →
        classifyLine (normalizeLine h2) = some (d2, t2, a2, b2) →
        emitLoop now [h1, l1, l2, h2] none =
          [⟨(parse_datetime ⟨d1⟩ ⟨t1⟩).getD now, pyStripS ⟨a1⟩,
              pyStripS ⟨b1⟩ ++ "\n" ++ ⟨normalizeLine l1⟩ ++ "\n" ++
                ⟨normalizeLine l2⟩, []⟩,
           ⟨(parse_datetime ⟨d2⟩ ⟨t2⟩).getD now, pyStripS ⟨a2⟩,
              pyStripS ⟨b2⟩, []⟩])
    ∧ (∀ now raw rest,
        classifyLine (normalizeLine raw) = none →
        emitLoop now (raw :: rest) none = emitLoop now rest none)
    ∧ (∀ now stem data dec2 dec3 title msgs,
        parse_chat_text now stem (some data) dec2 dec3 = Except.ok (title, msgs) →
        ∀ m, m ∈ msgs ↔ m ∈ emitLoop now (pySplitlines data.data) none) := by
  refine ⟨?_, ?_, ?_⟩
  · intro now h1 l1 l2 h2 d1 t1 a1 b1 d2 t2 a2 b2 hc1 hcl1 hcl2 hc2
    simp only [emitLoop, hc1, hcl1, hcl2, hc2]
  · intro now raw rest hc
    simp only [emitLoop, hc]
  · intro now stem data dec2 dec3 title msgs h m
    unfold parse_chat_text firstDecode at h
    simp only [Except.ok.injEq, Prod.mk.injEq] at h
    rw [← h.2]
    exact (List.mergeSort_perm _ _).mem_iff

/-- Closed instance of `c3_continuation_accumulation`: its accumulation
conjunct applied to a concrete four-line transcript. -/
theorem c3_continuation_accumulation_witness :
    emitLoop ⟨2030, 1, 1, 0, 0, 0⟩
      ["05/03/2024, 14:30 - Alice: hello".data, "more".data, "lines".data,
        "05/03/2024, 14:31 - Bob: yo".data] none =
      [⟨(parse_datetime ⟨"05/03/2024".data⟩ ⟨"14:30".data⟩).getD ⟨2030, 1, 1, 0, 0, 0⟩,
          pyStripS ⟨"Alice".data⟩,
          pyStripS ⟨"hello".data⟩ ++ "\n" ++ ⟨normalizeLine "more".data⟩ ++ "\n" ++
            ⟨normalizeLine "lines".data⟩, []⟩,
       ⟨(parse_datetime ⟨"05/03/2024".data⟩ ⟨"14:31".data⟩).getD ⟨2030, 1, 1, 0, 0, 0⟩,
          pyStripS ⟨"Bob".data⟩, pyStripS ⟨"yo".data⟩, []⟩] :=
  c3_continuation_accumulation.1 ⟨2030, 1, 1, 0, 0, 0⟩
    "05/03/2024, 14:30 - Alice: hello".data "more".data "lines".data
    "05/03/2024, 14:31 - Bob: yo".data _ _ _ _ _ _ _ _
    (by decide) (by decide) (by decide) (by decide)

/-- C6: the timestamp resolver tries its 16 formats in a fixed order and
returns the first successful parse (first two conjuncts); `("05/03/2024",
"14:30:00")` resolves — already under the first, day-first 24-hour, format;
`("05/03/2024","2:30:00 PM")` resolves, every 24-hour format (the first
eight) failing and the day-first 12-hour format succeeding;
`("32/13/2024","99:99")` fails every candidate, and on such total failure the
parser's line loop substitutes the wall-clock time `now` for the message. -/
theorem c6_timestamp_resolver :
    (∀ s f fs d, strptime f s = some d → tryFmts (f :: fs) s = some d)
    ∧ (∀ s f fs, strptime f s = none → tryFmts (f :: fs) s = tryFmts fs s)
    ∧ parse_datetime "05/03/2024" "14:30:00" = some ⟨2024, 3, 5, 14, 30, 0⟩
    ∧ strptime (fmtTokens true true true false) "05/03/2024 14:30:00".data =
        some ⟨2024, 3, 5, 14, 30, 0⟩
    ∧ parse_datetime "05/03/2024" "2:30:00 PM" = some ⟨2024, 3, 5, 14, 30, 0⟩
    ∧ (∀ f ∈ PARSE_FMTS.take 8, strptime f "05/03/2024 2:30:00 PM".data = none)
    ∧ strptime (fmtTokens true true true true) "05/03/2024 2:30:00 PM".data =
        some ⟨2024, 3, 5, 14, 30, 0⟩
    ∧ parse_datetime "32/13/2024" "99:99" = none
    ∧ (∀ now raw rest d t a b,
        classifyLine (normalizeLine raw) = some (d, t, a, b) →
        parse_datetime ⟨d⟩ ⟨t⟩ = none →
        emitLoop now (raw :: rest) none =
          emitLoop now rest (some ⟨now, pyStripS ⟨a⟩, pyStripS ⟨b⟩, []⟩)) := by
  refine ⟨?_, ?_, by decide, by decide, by decide, by decide, by decide,
    by decide, ?_⟩
  · intro s f fs d h
    simp [tryFmts, h]
  · intro s f fs h
    simp [tryFmts, h]
  · intro now raw rest d t a b hc hp
    simp only [emitLoop, hc, hp, Option.getD_none]

/-- Closed instance of `c6_timestamp_resolver`: its fallback-to-now conjunct
applied to a line whose header classifies but whose date/time resolves under
no candidate format. -/
theorem c6_timestamp_resolver_witness :
    emitLoop ⟨2030, 1, 1, 0, 0, 0⟩ ["32/13/2024, 99:99 - A: x".data] none =
      emitLoop ⟨2030, 1, 1, 0, 0, 0⟩ []
        (some ⟨⟨2030, 1, 1, 0, 0, 0⟩, pyStripS ⟨"A".data⟩, pyStripS ⟨"x".data⟩,
          []⟩) :=
  c6_timestamp_resolver.2.2.2.2.2.2.2.2 ⟨2030, 1, 1, 0, 0, 0⟩
    "32/13/2024, 99:99 - A: x".data [] "32/13/2024".data "99:99".data
    "A".data "x".data (by decide) (by decide)

/-- Helper: a pattern that reports no match yields `none`. -/
theorem reFullMatch_eq_none {r : RE} {s : List Char}
    (h : (reFullMatch r s).isSome = false) : reFullMatch r s = none := by
  cases hm : reFullMatch r s with
  | none => rfl
  | some v => rw [hm] at h; simp at h

/-- C4 counterexample: the claim that for each supported header format sample
exactly one pattern in the ordered list matches is false — the line
`"12/03/24, 14:30 - Alice: hi"` is a sample of the dashed-2-digit-year format
(its own pattern, index 3, matches it), yet two patterns match it, because
the dashed-4-digit-year pattern's `\d{2,4}` year also accepts two digits. -/
theorem c4_classifier_precedence_cex :
    patMatches 3 "12/03/24, 14:30 - Alice: hi".data = true ∧
    matchingPatternCount "12/03/24, 14:30 - Alice: hi".data = 2 := by
  exact ⟨by decide, by decide⟩

/-- C4 (amended): the classifier tries its patterns in the fixed precedence
order bracketed-24h, bracketed-12h, dashed-4-digit-year, dashed-2-digit-year,
bare 24h-with-seconds, the first match winning (first conjunct, for an
arbitrary line); samples of the bracketed-24h, bracketed-12h,
dashed-4-digit-year and bare-24h-with-seconds formats each match exactly one
pattern; but a dashed-2-digit-year sample matches both dashed patterns (the
4-digit-year pattern's `{2,4}` year quantifier admits two digits), and by
precedence the classifier resolves it through the dashed-4-digit-year pattern
(index 2). -/
theorem c4_classifier_precedence :
    (∀ line i pr, DATE_TIME_PATTERNS.get? i = some pr →
        (reFullMatch pr.1 line).isSome →
        (∀ k, k < i → patMatches k line = false) →
        classifyLine line = classifyWith pr.1 line)
    ∧ matchingPatternCount "[12/03/2024 14:30] Alice: hi".data = 1
    ∧ matchingPatternCount "[12/03/2024 2:30 PM] Alice: hi".data = 1
    ∧ matchingPatternCount "12/03/2024, 14:30 - Alice: hi".data = 1
    ∧ matchingPatternCount "12/03/2024 14:30:00 Alice: hi".data = 1
    ∧ patMatches 2 "12/03/24, 14:30 - Alice: hi".data = true
    ∧ patMatches 3 "12/03/24, 14:30 - Alice: hi".data = true
    ∧ matchingPatternCount "12/03/24, 14:30 - Alice: hi".data = 2
    ∧ classifyLine "12/03/24, 14:30 - Alice: hi".data =
        classifyWith pat3 "12/03/24, 14:30 - Alice: hi".data := by
  refine ⟨?_, by decide, by decide, by decide, by decide, by decide, by decide,
    by decide, by decide⟩
  intro line i pr hget hsome hfirst
  have hlen : i < DATE_TIME_PATTERNS.length := by
    rcases List.get?_eq_some.mp hget with ⟨h, -⟩
    exact h
  have hi : i < 5 := by simpa [DATE_TIME_PATTERNS] using hlen
  have e0 : patMatches 0 line = (reFullMatch pat1 line).isSome := rfl
  have e1 : patMatches 1 line = (reFullMatch pat2 line).isSome := rfl
  have e2 : patMatches 2 line = (reFullMatch pat3 line).isSome := rfl
  have e3 : patMatches 3 line = (reFullMatch pat4 line).isSome := rfl
  interval_cases i
  · obtain rfl : pr = (pat1, "%d/%m/%Y %H:%M:%S") := by simpa [DATE_TIME_PATTERNS] using hget.symm
    cases hm : reFullMatch pat1 line with
    | none => rw [hm] at hsome; simp at hsome
    | some caps =>
      simp [classifyLine, classifyGo, DATE_TIME_PATTERNS, classifyWith, hm]
  · obtain rfl : pr = (pat2, "%d/%m/%Y %I:%M:%S %p") := by simpa [DATE_TIME_PATTERNS] using hget.symm
    have h0 := reFullMatch_eq_none (e0 ▸ hfirst 0 (by omega))
    cases hm : reFullMatch pat2 line with
    | none => rw [hm] at hsome; simp at hsome
    | some caps =>
      simp [classifyLine, classifyGo, DATE_TIME_PATTERNS, classifyWith, hm, h0]
  · obtain rfl : pr = (pat3, "%d/%m/%Y %H:%M:%S") := by simpa [DATE_TIME_PATTERNS] using hget.symm
    have h0 := reFullMatch_eq_none (e0 ▸ hfirst 0 (by omega))
    have h1 := reFullMatch_eq_none (e1 ▸ hfirst 1 (by omega))
    cases hm : reFullMatch pat3 line with
    | none => rw [hm] at hsome; simp at hsome
    | some caps =>
      simp [classifyLine, classifyGo, DATE_TIME_PATTERNS, classifyWith, hm, h0,
        h1]
  · obtain rfl : pr = (pat4, "%d/%m/%y %H:%M:%S") := by simpa [DATE_TIME_PATTERNS] using hget.symm
    have h0 := reFullMatch_eq_none (e0 ▸ hfirst 0 (by omega))
    have h1 := reFullMatch_eq_none (e1 ▸ hfirst 1 (by omega))
    have h2 := reFullMatch_eq_none (e2 ▸ hfirst 2 (by omega))
    cases hm : reFullMatch pat4 line with
    | none => rw [hm] at hsome; simp at hsome
    | some caps =>
      simp [classifyLine, classifyGo, DATE_TIME_PATTERNS, classifyWith, hm, h0,
        h1, h2]
  · obtain rfl : pr = (pat5, "%d/%m/%Y %H:%M:%S") := by simpa [DATE_TIME_PATTERNS] using hget.symm
    have h0 := reFullMatch_eq_none (e0 ▸ hfirst 0 (by omega))
    have h1 := reFullMatch_eq_none (e1 ▸ hfirst 1 (by omega))
    have h2 := reFullMatch_eq_none (e2 ▸ hfirst 2 (by omega))
    have h3 := reFullMatch_eq_none (e3 ▸ hfirst 3 (by omega))
    cases hm : reFullMatch pat5 line with
    | none => rw [hm] at hsome; simp at hsome
    | some caps =>
      simp [classifyLine, classifyGo, DATE_TIME_PATTERNS, classifyWith, hm, h0,
        h1, h2, h3]

/-- Closed instance of `c4_classifier_precedence`: its precedence conjunct
applied to a concrete dashed-2-digit-year line at index 2. -/
theorem c4_classifier_precedence_witness :
    classifyLine "12/03/24, 14:30 - Alice: hi".data =
      classifyWith pat3 "12/03/24, 14:30 - Alice: hi".data :=
  c4_classifier_precedence.1 "12/03/24, 14:30 - Alice: hi".data 2
    (pat3, "%d/%m/%Y %H:%M:%S") rfl (by decide)
    (by intro k hk; interval_cases k <;> decide)

/-! ## Soundness of capture groups with respect to character bounds -/

theorem clsSub_true : ∀ r : RE, ClsSub (fun _ => True) r
  | .eps => trivial
  | .cls _ => fun _ _ => trivial
  | .cat a b => ⟨clsSub_true a, clsSub_true b⟩
  | .alt a b => ⟨clsSub_true a, clsSub_true b⟩
  | .starG a => clsSub_true a
  | .plusG a => clsSub_true a
  | .plusL a => clsSub_true a
  | .optG a => clsSub_true a
  | .grp _ a => clsSub_true a

theorem clsSub_and {P Q' : Char → Prop} : ∀ r : RE, ClsSub P r → ClsSub Q' r →
    ClsSub (fun c => P c ∧ Q' c) r
  | .eps, _, _ => trivial
  | .cls _, h1, h2 => fun c hc => ⟨h1 c hc, h2 c hc⟩
  | .cat a b, h1, h2 => ⟨clsSub_and a h1.1 h2.1, clsSub_and b h1.2 h2.2⟩
  | .alt a b, h1, h2 => ⟨clsSub_and a h1.1 h2.1, clsSub_and b h1.2 h2.2⟩
  | .starG a, h1, h2 => clsSub_and a h1 h2
  | .plusG a, h1, h2 => clsSub_and a h1 h2
  | .plusL a, h1, h2 => clsSub_and a h1 h2
  | .optG a, h1, h2 => clsSub_and a h1 h2
  | .grp _ a, h1, h2 => clsSub_and a h1 h2

/-- Soundness of the matcher: whenever a run succeeds, the continuation was
invoked at a suffix of the input whose consumed prefix satisfies the regex's
class bound `P`, with captures respecting the per-group bounds `Φ`. -/
theorem reMatch_sound {α : Type} (Φ : Nat → Char → Prop) (Q : Prop) :
    ∀ (fuel : Nat) (r : RE) (P : Char → Prop) (s : List Char) (caps : Caps)
      (k : List Char → Caps → Option α) (out : α),
      GrpsOk Φ r → ClsSub P r → CapsOk Φ caps →
      (∀ s2 caps2 pre, s = pre ++ s2 → (∀ c ∈ pre, P c) → CapsOk Φ caps2 →
        k s2 caps2 = some out → Q) →
      reMatch fuel r s caps k = some out → Q := by
  intro fuel
  induction fuel with
  | zero => intro r P s caps k out _ _ _ _ h; simp [reMatch] at h
  | succ fuel ih =>
    intro r P s caps k out hg hc hcaps hk h
    cases r with
    | eps => exact hk s caps [] rfl (by simp) hcaps h
    | cls q =>
      cases s with
      | nil => simp [reMatch] at h
      | cons c rest =>
        simp only [reMatch] at h
        by_cases hq : q c = true
        · rw [if_pos hq] at h
          refine hk rest caps [c] rfl ?_ hcaps h
          intro x hx
          rcases List.mem_singleton.mp hx with rfl
          exact hc x hq
        · rw [if_neg hq] at h
          exact absurd h (by simp)
    | cat a b =>
      simp only [reMatch] at h
      exact ih a P s caps _ out hg.1 hc.1 hcaps
        (fun s2 caps2 pre hpre hp hcaps2 h2 =>
          ih b P s2 caps2 k out hg.2 hc.2 hcaps2
            (fun s3 caps3 pre2 hpre2 hp2 hcaps3 h3 =>
              hk s3 caps3 (pre ++ pre2)
                (by rw [hpre, hpre2, List.append_assoc])
                (by intro x hx
                    rcases List.mem_append.mp hx with hx | hx
                    exacts [hp x hx, hp2 x hx]) hcaps3 h3) h2) h
    | alt a b =>
      simp only [reMatch] at h
      cases hr : reMatch fuel a s caps k with
      | some o =>
        rw [hr] at h
        cases h
        exact ih a P s caps k out hg.1 hc.1 hcaps hk hr
      | none =>
        rw [hr] at h
        exact ih b P s caps k out hg.2 hc.2 hcaps hk h
    | starG a =>
      simp only [reMatch] at h
      cases hr : reMatch fuel a s caps
          (fun s2 caps2 => reMatch fuel (RE.starG a) s2 caps2 k) with
      | some o =>
        rw [hr] at h
        cases h
        exact ih a P s caps _ out hg hc hcaps
          (fun s2 caps2 pre hpre hp hcaps2 h2 =>
            ih (RE.starG a) P s2 caps2 k out hg hc hcaps2
              (fun s3 caps3 pre2 hpre2 hp2 hcaps3 h3 =>
                hk s3 caps3 (pre ++ pre2)
                  (by rw [hpre, hpre2, List.append_assoc])
                  (by intro x hx
                      rcases List.mem_append.mp hx with hx | hx
                      exacts [hp x hx, hp2 x hx]) hcaps3 h3) h2) hr
      | none =>
        rw [hr] at h
        exact hk s caps [] rfl (by simp) hcaps h
    | plusG a =>
      simp only [reMatch] at h
      exact ih a P s caps _ out hg hc hcaps
        (fun s2 caps2 pre hpre hp hcaps2 h2 =>
          ih (RE.starG a) P s2 caps2 k out hg hc hcaps2
            (fun s3 caps3 pre2 hpre2 hp2 hcaps3 h3 =>
              hk s3 caps3 (pre ++ pre2)
                (by rw [hpre, hpre2, List.append_assoc])
                (by intro x hx
                    rcases List.mem_append.mp hx with hx | hx
                    exacts [hp x hx, hp2 x hx]) hcaps3 h3) h2) h
    | plusL a =>
      simp only [reMatch] at h
      exact ih a P s caps _ out hg hc hcaps
        (fun s2 caps2 pre hpre hp hcaps2 h2 => by
          cases hko : k s2 caps2 with
          | some o =>
            rw [hko] at h2
            cases h2
            exact hk s2 caps2 pre hpre hp hcaps2 hko
          | none =>
            rw [hko] at h2
            exact ih (RE.plusL a) P s2 caps2 k out hg hc hcaps2
              (fun s3 caps3 pre2 hpre2 hp2 hcaps3 h3 =>
                hk s3 caps3 (pre ++ pre2)
                  (by rw [hpre, hpre2, List.append_assoc])
                  (by intro x hx
                      rcases List.mem_append.mp hx with hx | hx
                      exacts [hp x hx, hp2 x hx]) hcaps3 h3) h2) h
    | optG a =>
      simp only [reMatch] at h
      cases hr : reMatch fuel a s caps k with
      | some o =>
        rw [hr] at h
        cases h
        exact ih a P s caps k out hg hc hcaps hk hr
      | none =>
        rw [hr] at h
        exact hk s caps [] rfl (by simp) hcaps h
    | grp n a =>
      simp only [reMatch] at h
      exact ih a (fun c => P c ∧ Φ n c) s caps _ out hg.1
        (clsSub_and a hc hg.2) hcaps
        (fun s2 caps2 pre hpre hp hcaps2 h2 => by
          have hw : s.take (s.length - s2.length) = pre := by
            subst hpre
            rw [List.length_append, Nat.add_sub_cancel, List.take_left]
          refine hk s2 ((n, s.take (s.length - s2.length)) :: caps2) pre hpre
            (fun c hcm => (hp c hcm).1) ?_ h2
          intro p hp2 c hcp
          rcases List.mem_cons.mp hp2 with rfl | hp3
          · rw [hw] at hcp
            exact (hp c hcp).2
          · exact hcaps2 p hp3 c hcp) h

/-- A successful anchored match yields captures respecting the per-group
bounds. -/
theorem reFullMatch_capsOk {Φ : Nat → Char → Prop} {r : RE} {s : List Char}
    {caps : Caps} (hg : GrpsOk Φ r) (h : reFullMatch r s = some caps) :
    CapsOk Φ caps := by
  refine reMatch_sound Φ (CapsOk Φ caps) (reFuel r s) r (fun _ => True) s [] _
    caps hg (clsSub_true r) (by intro p hp; simp at hp) ?_ h
  intro s2 caps2 pre _ _ hcaps2 hk
  by_cases he : s2.isEmpty
  · rw [if_pos he] at hk
    cases hk
    exact hcaps2
  · rw [if_neg he] at hk
    exact absurd hk (by simp)

/-- Characters of a recorded capture group satisfy its bound. -/
theorem getGrp_chars {Φ : Nat → Char → Prop} {caps : Caps}
    (h : CapsOk Φ caps) (n : Nat) : ∀ c ∈ getGrp n caps, Φ n c := by
  cases hf : caps.find? (fun p => p.1 = n) with
  | none => intro c hc; simp [getGrp, hf] at hc
  | some p =>
    intro c hc
    simp only [getGrp, hf] at hc
    have hmem : p ∈ caps := List.mem_of_find?_eq_some hf
    have hpn : p.1 = n := by simpa using List.find?_some hf
    have hv := h p hmem c hc
    rwa [hpn] at hv

theorem grpsOk_pat1 : GrpsOk authorCharOk pat1 := by
  simp [pat1, rcats, GrpsOk, ClsSub, authorCharOk, dateRE24, d12, d24, d2,
    timeRE, dateSep, rdigit, rchar, rspace, wsPlus, wsStar, authorBodyRE]

theorem grpsOk_pat2 : GrpsOk authorCharOk pat2 := by
  simp [pat2, rcats, GrpsOk, ClsSub, authorCharOk, dateRE24, d12, d24, d2,
    timeRE, dateSep, rdigit, rchar, rspace, wsPlus, wsStar, authorBodyRE,
    ampmRE, rstr]

theorem grpsOk_pat3 : GrpsOk authorCharOk pat3 := by
  simp [pat3, rcats, GrpsOk, ClsSub, authorCharOk, dateRE24, d12, d24, d2,
    timeRE, dateSep, rdigit, rchar, rspace, wsPlus, wsStar, authorBodyRE,
    dashSep]

theorem grpsOk_pat4 : GrpsOk authorCharOk pat4 := by
  simp [pat4, rcats, GrpsOk, ClsSub, authorCharOk, dateRE2, d12, d2,
    timeRE, dateSep, rdigit, rchar, rspace, wsPlus, wsStar, authorBodyRE,
    dashSep]

theorem grpsOk_pat5 : GrpsOk authorCharOk pat5 := by
  simp [pat5, rcats, GrpsOk, ClsSub, authorCharOk, dateRE24, d12, d24, d2,
    timeSecRE, dateSep, rdigit, rchar, rspace, wsPlus, wsStar, authorBodyRE]

/-- The classifier loop only ever reports an author without colons, for any
pattern list with colon-free group-3 bodies. -/
theorem classifyGo_author {l : List (RE × String)} {line d t a b : List Char}
    (hall : ∀ pr ∈ l, GrpsOk authorCharOk pr.1)
    (h : classifyGo l line = some (d, t, a, b)) : ∀ c ∈ a, c ≠ ':' := by
  induction l with
  | nil => simp [classifyGo] at h
  | cons pr rest ih =>
    simp only [classifyGo] at h
    cases hm : reFullMatch pr.1 line with
    | some caps =>
      rw [hm] at h
      cases h
      intro c hc
      exact getGrp_chars (reFullMatch_capsOk (hall pr (by simp)) hm) 3 c hc rfl
    | none =>
      rw [hm] at h
      exact ih (fun q hq => hall q (by simp [hq])) h

/-- C5 counterexample: the claim that an author-position segment containing a
colon before the first colon-followed-by-space still classifies (with the
colon absorbed into the author) is false — in
`"12/03/2024, 14:30 - a:b: hi"` the colon after `a` is not followed by
whitespace, and the line matches no header pattern at all. -/
theorem c5_author_extraction_cex :
    classifyLine "12/03/2024, 14:30 - a:b: hi".data = none := by decide

/-- C5 (amended): for every line the classifier accepts, the extracted author
is the text between the timestamp separator and the first colon, which must be
followed by whitespace — the author can never contain a colon (first
conjunct); concretely, a second colon-plus-space later in the line stays in
the body (second conjunct, body `"b: hi"` with its embedded colon), while an
author-position colon not followed by whitespace prevents the line from
classifying at all (third conjunct). -/
theorem c5_author_extraction :
    (∀ line d t a b, classifyLine line = some (d, t, a, b) → ∀ c ∈ a, c ≠ ':')
    ∧ classifyLine "12/03/2024, 14:30 - a: b: hi".data =
        some ("12/03/2024".data, "14:30".data, "a".data, "b: hi".data)
    ∧ classifyLine "12/03/2024, 14:30 - a:b: hi".data = none := by
  refine ⟨?_, by decide, by decide⟩
  intro line d t a b h
  refine classifyGo_author ?_ h
  intro pr hpr
  simp only [DATE_TIME_PATTERNS, List.mem_cons, List.not_mem_nil,
    or_false] at hpr
  rcases hpr with rfl | rfl | rfl | rfl | rfl
  · exact grpsOk_pat1
  · exact grpsOk_pat2
  · exact grpsOk_pat3
  · exact grpsOk_pat4
  · exact grpsOk_pat5

/-- Closed instance of `c5_author_extraction`: its no-colon conjunct applied
to a concrete classified line and a concrete author character. -/
theorem c5_author_extraction_witness : 'e' ≠ ':' :=
  c5_author_extraction.1 "12/03/2024, 14:30 - Alice: hi".data
    "12/03/2024".data "14:30".data "Alice".data "hi".data (by decide) 'e'
    (by decide)

/-- C8: the transcript decode tries exactly three encodings in the fixed order
utf-8-sig, utf-16, utf-8 and uses the first success; parsing fails hard if and
only if all three fail, and on failure no messages are produced (the result
is a bare error). -/
theorem c8_decoding :
    (∀ now stem d1 d2 d3,
        (∃ e, parse_chat_text now stem d1 d2 d3 = Except.error e) ↔
          (d1 = none ∧ d2 = none ∧ d3 = none))
    ∧ (∀ now stem s d2 d3,
        parse_chat_text now stem (some s) d2 d3 =
          Except.ok (detect_title_from_txtname stem,
            (emitLoop now (pySplitlines s.data) none).mergeSort msgLe))
    ∧ (∀ now stem s d3,
        parse_chat_text now stem none (some s) d3 =
          Except.ok (detect_title_from_txtname stem,
            (emitLoop now (pySplitlines s.data) none).mergeSort msgLe))
    ∧ (∀ now stem s,
        parse_chat_text now stem none none (some s) =
          Except.ok (detect_title_from_txtname stem,
            (emitLoop now (pySplitlines s.data) none).mergeSort msgLe))
    ∧ (∀ now stem,
        parse_chat_text now stem none none none =
          Except.error "Impossible de lire") := by
  refine ⟨?_, ?_, ?_, ?_, ?_⟩
  · intro now stem d1 d2 d3
    cases d1 <;> cases d2 <;> cases d3 <;>
      simp [parse_chat_text, firstDecode]
  · intro now stem s d2 d3
    simp [parse_chat_text, firstDecode]
  · intro now stem s d3
    simp [parse_chat_text, firstDecode]
  · intro now stem s
    simp [parse_chat_text, firstDecode]
  · intro now stem
    simp [parse_chat_text, firstDecode]

/-- Closed instance of `c8_decoding`: all three decodes failing yields the
hard error for a concrete call. -/
theorem c8_decoding_witness :
    parse_chat_text ⟨2030, 1, 1, 0, 0, 0⟩ "chat" none none none =
      Except.error "Impossible de lire" :=
  c8_decoding.2.2.2.2 ⟨2030, 1, 1, 0, 0, 0⟩ "chat"

/-! ## Helpers for the line normalizer -/

theorem mem_dropWhile {p : Char → Bool} {c : Char} :
    ∀ {l : List Char}, c ∈ l.dropWhile p → c ∈ l := by
  intro l h
  exact (List.dropWhile_sublist p).mem h

theorem mem_pyStrip {c : Char} {l : List Char} (h : c ∈ pyStrip l) : c ∈ l := by
  unfold pyStrip at h
  rw [List.mem_reverse] at h
  have h2 := mem_dropWhile h
  rw [List.mem_reverse] at h2
  exact mem_dropWhile h2

theorem head_dropWhile_not {p : Char → Bool} :
    ∀ {l : List Char} {c : Char}, (l.dropWhile p).head? = some c → p c = false := by
  intro l
  induction l with
  | nil => intro c h; simp [List.dropWhile] at h
  | cons x xs ih =>
    intro c h
    by_cases hp : p x
    · rw [List.dropWhile_cons_of_pos hp] at h
      exact ih h
    · rw [List.dropWhile_cons_of_neg hp] at h
      simp only [List.head?_cons, Option.some.injEq] at h
      subst h
      exact Bool.eq_false_iff.mpr hp

theorem getLast?_dropWhile {p : Char → Bool} :
    ∀ (l : List Char), l.dropWhile p ≠ [] →
      (l.dropWhile p).getLast? = l.getLast? := by
  intro l
  induction l with
  | nil => intro h; simp [List.dropWhile] at h
  | cons x xs ih =>
    intro h
    by_cases hp : p x
    · rw [List.dropWhile_cons_of_pos hp] at h ⊢
      rw [ih h]
      cases xs with
      | nil => simp [List.dropWhile] at h
      | cons y ys => rw [List.getLast?_cons_cons]
    · rw [List.dropWhile_cons_of_neg hp]

theorem pyStrip_head_not_space {l : List Char} {c : Char}
    (h : (pyStrip l).head? = some c) : pyIsSpace c = false := by
  unfold pyStrip at h
  rw [List.head?_reverse] at h
  have hne : ((l.dropWhile pyIsSpace).reverse.dropWhile pyIsSpace) ≠ [] := by
    intro he
    rw [he] at h
    simp at h
  rw [getLast?_dropWhile _ hne, List.getLast?_reverse] at h
  exact head_dropWhile_not h

theorem pyStrip_getLast_not_space {l : List Char} {c : Char}
    (h : (pyStrip l).getLast? = some c) : pyIsSpace c = false := by
  unfold pyStrip at h
  rw [List.getLast?_reverse] at h
  exact head_dropWhile_not h

/-- C9 counterexample: the right-to-left mark U+200F is not removed by the
normalizer (only the left-to-right mark U+200E is), so the claim that both
directionality marks are removed is false. -/
theorem c9_normalizer_cex :
    normalizeLine ['\u200f', 'a'] = ['\u200f', 'a'] ∧
      '\u200f' ∈ normalizeLine ['\u200f', 'a'] :=
  ⟨by decide, by decide⟩

/-- C9 (amended): the normalizer removes the left-to-right mark U+200E (but
not the right-to-left mark U+200F), replaces the non-breaking and
narrow-no-break space code points by ordinary spaces, and trims leading and
trailing whitespace; it is a pure total function.  Conjuncts: no U+200E,
U+00A0 or U+202F survives; the first and last characters of the output are
never whitespace; and concrete replacement/trim behaviour. -/
theorem c9_normalizer :
    (∀ raw : List Char, '\u200e' ∉ normalizeLine raw)
    ∧ (∀ raw : List Char, '\u00a0' ∉ normalizeLine raw)
    ∧ (∀ raw : List Char, '\u202f' ∉ normalizeLine raw)
    ∧ (∀ (raw : List Char) (c : Char),
        (normalizeLine raw).head? = some c → pyIsSpace c = false)
    ∧ (∀ (raw : List Char) (c : Char),
        (normalizeLine raw).getLast? = some c → pyIsSpace c = false)
    ∧ normalizeLine "a\u00a0b".data = "a b".data
    ∧ normalizeLine "a\u202fb".data = "a b".data
    ∧ normalizeLine " \u200ea ".data = "a".data := by
  refine ⟨?_, ?_, ?_, ?_, ?_, by decide, by decide, by decide⟩
  · intro raw h
    have h1 := mem_pyStrip h
    simp only [normalizeLine, pyReplaceChar, pyDeleteChar, List.mem_map,
      List.mem_filter] at h1
    obtain ⟨b, ⟨a, ⟨ha, hane⟩, hab⟩, hb⟩ := h1
    split_ifs at hab hb <;> simp_all
  · intro raw h
    have h1 := mem_pyStrip h
    simp only [normalizeLine, pyReplaceChar, pyDeleteChar, List.mem_map,
      List.mem_filter] at h1
    obtain ⟨b, ⟨a, ⟨ha, hane⟩, hab⟩, hb⟩ := h1
    split_ifs at hab hb <;> simp_all
  · intro raw h
    have h1 := mem_pyStrip h
    simp only [normalizeLine, pyReplaceChar, pyDeleteChar, List.mem_map,
      List.mem_filter] at h1
    obtain ⟨b, ⟨a, ⟨ha, hane⟩, hab⟩, hb⟩ := h1
    split_ifs at hab hb <;> simp_all
  · intro raw c h
    exact pyStrip_head_not_space h
  · intro raw c h
    exact pyStrip_getLast_not_space h

/-- Closed instance of `c9_normalizer`: the no-whitespace-head conjunct at a
concrete input. -/
theorem c9_normalizer_witness : pyIsSpace 'a' = false :=
  c9_normalizer.2.2.2.1 " \u00a0a  ".data 'a' (by decide)

/-! ## Lemmas about the linker's first pass inner loop -/

theorem countFile_append (f : String) (a b : List Attachment) :
    countFile f (a ++ b) = countFile f a + countFile f b := by
  simp [countFile, List.filter_append]

/-- `countFile` on the one-attachment list produced by an attach step. -/
theorem countFile_mk (f p g : String) :
    countFile f [mkAttachment p g] = if g = f then 1 else 0 := by
  by_cases h : g = f <;> simp [countFile, List.filter, mkAttachment, h]

/-- Step equation: unreferenced-in-catalog filename. -/
theorem attachFiles_cons_none (cat : Catalog) (g : String) (fs : List String)
    (atts : List Attachment) (asg : List String)
    (hl : mediaLookup cat g = none) :
    attachFiles cat (g :: fs) atts asg = attachFiles cat fs atts asg := by
  simp only [attachFiles, hl]

/-- Step equation: catalogued but already assigned. -/
theorem attachFiles_cons_assigned (cat : Catalog) (g : String)
    (fs : List String) (atts : List Attachment) (asg : List String)
    (p : String) (hl : mediaLookup cat g = some p)
    (hg : asg.contains g = true) :
    attachFiles cat (g :: fs) atts asg = attachFiles cat fs atts asg := by
  simp only [attachFiles, hl, if_pos hg]

/-- Step equation: catalogued and unassigned — attach and mark. -/
theorem attachFiles_cons_new (cat : Catalog) (g : String) (fs : List String)
    (atts : List Attachment) (asg : List String) (p : String)
    (hl : mediaLookup cat g = some p) (hg : asg.contains g = false) :
    attachFiles cat (g :: fs) atts asg =
      attachFiles cat fs (atts ++ [mkAttachment p g]) (g :: asg) := by
  simp only [attachFiles, hl, hg, Bool.false_eq_true, if_false]

/-- `attachFiles` only appends to the attachment list. -/
theorem attachFiles_shape (cat : Catalog) :
    ∀ (fs : List String) (atts : List Attachment) (asg : List String),
      ∃ extra, (attachFiles cat fs atts asg).1 = atts ++ extra := by
  intro fs
  induction fs with
  | nil => intro atts asg; exact ⟨[], by simp [attachFiles]⟩
  | cons g fs ih =>
    intro atts asg
    cases hl : mediaLookup cat g with
    | none => rw [attachFiles_cons_none cat g fs atts asg hl]; exact ih atts asg
    | some p =>
      cases hg : asg.contains g with
      | true =>
        rw [attachFiles_cons_assigned cat g fs atts asg p hl hg]
        exact ih atts asg
      | false =>
        rw [attachFiles_cons_new cat g fs atts asg p hl hg]
        obtain ⟨extra, he⟩ := ih (atts ++ [mkAttachment p g]) (g :: asg)
        exact ⟨mkAttachment p g :: extra, by simp [he]⟩

/-- The `assigned` set only grows. -/
theorem attachFiles_mono (cat : Catalog) {f : String} :
    ∀ (fs : List String) (atts : List Attachment) (asg : List String),
      f ∈ asg → f ∈ (attachFiles cat fs atts asg).2 := by
  intro fs
  induction fs with
  | nil => intro atts asg h; exact h
  | cons g fs ih =>
    intro atts asg h
    cases hl : mediaLookup cat g with
    | none => rw [attachFiles_cons_none cat g fs atts asg hl]; exact ih atts asg h
    | some p =>
      cases hg : asg.contains g with
      | true =>
        rw [attachFiles_cons_assigned cat g fs atts asg p hl hg]
        exact ih atts asg h
      | false =>
        rw [attachFiles_cons_new cat g fs atts asg p hl hg]
        exact ih _ _ (List.mem_cons_of_mem g h)

/-- An already-assigned filename is never attached again. -/
theorem attachFiles_assigned_frame (cat : Catalog) {f : String} :
    ∀ (fs : List String) (atts : List Attachment) (asg : List String),
      f ∈ asg →
      countFile f (attachFiles cat fs atts asg).1 = countFile f atts := by
  intro fs
  induction fs with
  | nil => intro atts asg _; rfl
  | cons g fs ih =>
    intro atts asg h
    cases hl : mediaLookup cat g with
    | none => rw [attachFiles_cons_none cat g fs atts asg hl]; exact ih atts asg h
    | some p =>
      cases hg : asg.contains g with
      | true =>
        rw [attachFiles_cons_assigned cat g fs atts asg p hl hg]
        exact ih atts asg h
      | false =>
        rw [attachFiles_cons_new cat g fs atts asg p hl hg]
        have hgf : g ≠ f := by
          intro he
          subst he
          have h2 : asg.contains g = true := List.elem_eq_true_of_mem h
          rw [h2] at hg
          exact absurd hg (by simp)
        rw [ih _ _ (List.mem_cons_of_mem g h), countFile_append, countFile_mk,
          if_neg hgf]
        omega

theorem contains_true_of_mem {a : String} {l : List String} (h : a ∈ l) :
    l.contains a = true := List.elem_eq_true_of_mem h

theorem not_mem_of_contains_false {a : String} {l : List String}
    (h : l.contains a = false) : a ∉ l := by
  intro hm
  rw [contains_true_of_mem hm] at h
  exact absurd h (by simp)

theorem mem_of_contains_true {a : String} {l : List String}
    (h : l.contains a = true) : a ∈ l := List.mem_of_elem_eq_true h

/-- A filename not referenced by the message is untouched: its count and its
assigned status are unchanged. -/
theorem attachFiles_not_mem (cat : Catalog) {f : String} :
    ∀ (fs : List String) (atts : List Attachment) (asg : List String),
      f ∉ fs →
      countFile f (attachFiles cat fs atts asg).1 = countFile f atts ∧
        (f ∈ (attachFiles cat fs atts asg).2 ↔ f ∈ asg) := by
  intro fs
  induction fs with
  | nil => intro atts asg _; exact ⟨rfl, Iff.rfl⟩
  | cons g fs ih =>
    intro atts asg hnm
    have hgf : g ≠ f := fun he => hnm (he ▸ List.mem_cons_self g fs)
    have hfs : f ∉ fs := fun hf => hnm (List.mem_cons_of_mem g hf)
    cases hl : mediaLookup cat g with
    | none => rw [attachFiles_cons_none cat g fs atts asg hl]; exact ih atts asg hfs
    | some p =>
      cases hg : asg.contains g with
      | true =>
        rw [attachFiles_cons_assigned cat g fs atts asg p hl hg]
        exact ih atts asg hfs
      | false =>
        rw [attachFiles_cons_new cat g fs atts asg p hl hg]
        obtain ⟨h1, h2⟩ := ih (atts ++ [mkAttachment p g]) (g :: asg) hfs
        refine ⟨?_, ?_⟩
        · rw [h1, countFile_append, countFile_mk, if_neg hgf]
          omega
        · rw [h2]
          have hfg : f ≠ g := fun he => hgf he.symm
          simp [List.mem_cons, hfg]

/-- A referenced, catalogued, unassigned filename is attached and marked. -/
theorem attachFiles_attaches (cat : Catalog) {f : String} :
    ∀ (fs : List String) (atts : List Attachment) (asg : List String),
      f ∈ fs → (mediaLookup cat f).isSome → f ∉ asg →
      f ∈ (attachFiles cat fs atts asg).1.map Attachment.filename ∧
        f ∈ (attachFiles cat fs atts asg).2 := by
  intro fs
  induction fs with
  | nil => intro atts asg h; simp at h
  | cons g fs ih =>
    intro atts asg hmem hsome hasg
    rcases List.mem_cons.mp hmem with rfl | hmem2
    · cases hl : mediaLookup cat f with
      | none => rw [hl] at hsome; simp at hsome
      | some p =>
        have hg : asg.contains f = false := by
          cases hc : asg.contains f with
          | false => rfl
          | true => exact absurd (mem_of_contains_true hc) hasg
        rw [attachFiles_cons_new cat f fs atts asg p hl hg]
        constructor
        · obtain ⟨extra, he⟩ :=
            attachFiles_shape cat fs (atts ++ [mkAttachment p f]) (f :: asg)
          rw [he]
          simp [mkAttachment]
        · exact attachFiles_mono cat fs _ _ (List.mem_cons_self f asg)
    · cases hl : mediaLookup cat g with
      | none =>
        rw [attachFiles_cons_none cat g fs atts asg hl]
        exact ih atts asg hmem2 hsome hasg
      | some p =>
        cases hg : asg.contains g with
        | true =>
          rw [attachFiles_cons_assigned cat g fs atts asg p hl hg]
          exact ih atts asg hmem2 hsome hasg
        | false =>
          rw [attachFiles_cons_new cat g fs atts asg p hl hg]
          by_cases hgf : g = f
          · subst hgf
            constructor
            · obtain ⟨extra, he⟩ :=
                attachFiles_shape cat fs (atts ++ [mkAttachment p g]) (g :: asg)
              rw [he]
              simp [mkAttachment]
            · exact attachFiles_mono cat fs _ _ (List.mem_cons_self g asg)
          · have hfg : f ≠ g := fun he => hgf he.symm
            have hnm : f ∉ g :: asg := by
              simp [List.mem_cons, hasg, hfg]
            exact ih _ _ hmem2 hsome hnm

/-- The assigned set grows only by referenced filenames. -/
theorem attachFiles_growth (cat : Catalog) {f : String} :
    ∀ (fs : List String) (atts : List Attachment) (asg : List String),
      f ∈ (attachFiles cat fs atts asg).2 → f ∈ asg ∨ f ∈ fs := by
  intro fs
  induction fs with
  | nil => intro atts asg h; exact Or.inl h
  | cons g fs ih =>
    intro atts asg h
    cases hl : mediaLookup cat g with
    | none =>
      rw [attachFiles_cons_none cat g fs atts asg hl] at h
      rcases ih atts asg h with h2 | h2
      · exact Or.inl h2
      · exact Or.inr (List.mem_cons_of_mem g h2)
    | some p =>
      cases hg : asg.contains g with
      | true =>
        rw [attachFiles_cons_assigned cat g fs atts asg p hl hg] at h
        rcases ih atts asg h with h2 | h2
        · exact Or.inl h2
        · exact Or.inr (List.mem_cons_of_mem g h2)
      | false =>
        rw [attachFiles_cons_new cat g fs atts asg p hl hg] at h
        rcases ih _ _ h with h2 | h2
        · rcases List.mem_cons.mp h2 with rfl | h3
          · exact Or.inr (List.mem_cons_self f fs)
          · exact Or.inl h3
        · exact Or.inr (List.mem_cons_of_mem g h2)

/-- A filename left unassigned was not attached. -/
theorem attachFiles_unassigned_frame (cat : Catalog) {f : String} :
    ∀ (fs : List String) (atts : List Attachment) (asg : List String),
      f ∉ (attachFiles cat fs atts asg).2 →
      countFile f (attachFiles cat fs atts asg).1 = countFile f atts := by
  intro fs
  induction fs with
  | nil => intro atts asg _; rfl
  | cons g fs ih =>
    intro atts asg h
    cases hl : mediaLookup cat g with
    | none =>
      rw [attachFiles_cons_none cat g fs atts asg hl] at h ⊢
      exact ih atts asg h
    | some p =>
      cases hg : asg.contains g with
      | true =>
        rw [attachFiles_cons_assigned cat g fs atts asg p hl hg] at h ⊢
        exact ih atts asg h
      | false =>
        rw [attachFiles_cons_new cat g fs atts asg p hl hg] at h ⊢
        have hgf : g ≠ f := by
          intro he
          subst he
          exact h (attachFiles_mono cat fs _ _ (List.mem_cons_self g asg))
        rw [ih _ _ h, countFile_append, countFile_mk, if_neg hgf]
        omega

/-- At most one attachment with a given filename is added per message, and an
addition marks (and requires previously-unmarked) assignment. -/
theorem attachFiles_bound (cat : Catalog) {f : String} :
    ∀ (fs : List String) (atts : List Attachment) (asg : List String),
      countFile f (attachFiles cat fs atts asg).1 ≤ countFile f atts + 1 ∧
        (countFile f (attachFiles cat fs atts asg).1 ≠ countFile f atts →
          f ∉ asg ∧ f ∈ (attachFiles cat fs atts asg).2) := by
  intro fs
  induction fs with
  | nil => intro atts asg; exact ⟨Nat.le_succ _, fun h => absurd rfl h⟩
  | cons g fs ih =>
    intro atts asg
    cases hl : mediaLookup cat g with
    | none => rw [attachFiles_cons_none cat g fs atts asg hl]; exact ih atts asg
    | some p =>
      cases hg : asg.contains g with
      | true =>
        rw [attachFiles_cons_assigned cat g fs atts asg p hl hg]
        exact ih atts asg
      | false =>
        rw [attachFiles_cons_new cat g fs atts asg p hl hg]
        by_cases hgf : g = f
        · subst hgf
          have hnotasg : g ∉ asg := not_mem_of_contains_false hg
          have h1 := attachFiles_assigned_frame cat fs
            (atts ++ [mkAttachment p g]) (g :: asg) (List.mem_cons_self g asg)
          rw [h1, countFile_append, countFile_mk, if_pos rfl]
          exact ⟨le_refl _, fun _ => ⟨hnotasg,
            attachFiles_mono cat fs _ _ (List.mem_cons_self g asg)⟩⟩
        · obtain ⟨hb, hinc⟩ := ih (atts ++ [mkAttachment p g]) (g :: asg)
          rw [countFile_append, countFile_mk, if_neg hgf] at hb hinc
          refine ⟨by omega, fun hne => ?_⟩
          obtain ⟨hn1, hn2⟩ := hinc (by omega)
          exact ⟨fun hm => hn1 (List.mem_cons_of_mem g hm), hn2⟩

/-! ## Lemmas about linker pass 1 -/

/-- Step equation for `linkPass1`. -/
theorem linkPass1_cons (cat : Catalog) (m : Message) (ms : List Message)
    (asg : List String) :
    linkPass1 cat (m :: ms) asg =
      ({ m with attachments :=
          (attachFiles cat (extractFilesInText m.text) m.attachments asg).1 } ::
        (linkPass1 cat ms
          (attachFiles cat (extractFilesInText m.text) m.attachments asg).2).1,
       (linkPass1 cat ms
          (attachFiles cat (extractFilesInText m.text) m.attachments asg).2).2) :=
  rfl

theorem linkPass1_mono (cat : Catalog) {f : String} :
    ∀ (ms : List Message) (asg : List String),
      f ∈ asg → f ∈ (linkPass1 cat ms asg).2 := by
  intro ms
  induction ms with
  | nil => intro asg h; exact h
  | cons m ms ih =>
    intro asg h
    rw [linkPass1_cons]
    exact ih _ (attachFiles_mono cat _ _ _ h)

theorem linkPass1_assigned_frame (cat : Catalog) {f : String} :
    ∀ (ms : List Message) (asg : List String),
      f ∈ asg →
      (linkPass1 cat ms asg).1.map (fun m => countFile f m.attachments) =
        ms.map fun m => countFile f m.attachments := by
  intro ms
  induction ms with
  | nil => intro asg _; rfl
  | cons m ms ih =>
    intro asg h
    rw [linkPass1_cons]
    simp only [List.map_cons]
    rw [attachFiles_assigned_frame cat _ _ _ h,
      ih _ (attachFiles_mono cat _ _ _ h)]

theorem linkPass1_growth (cat : Catalog) {f : String} :
    ∀ (ms : List Message) (asg : List String),
      f ∈ (linkPass1 cat ms asg).2 →
      f ∈ asg ∨ ∃ m ∈ ms, f ∈ extractFilesInText m.text := by
  intro ms
  induction ms with
  | nil => intro asg h; exact Or.inl h
  | cons m ms ih =>
    intro asg h
    rw [linkPass1_cons] at h
    rcases ih _ h with h2 | h2
    · rcases attachFiles_growth cat _ _ _ h2 with h3 | h3
      · exact Or.inl h3
      · exact Or.inr ⟨m, List.mem_cons_self m ms, h3⟩
    · obtain ⟨m2, hm2, hf2⟩ := h2
      exact Or.inr ⟨m2, List.mem_cons_of_mem m hm2, hf2⟩

theorem linkPass1_unassigned_frame (cat : Catalog) {f : String} :
    ∀ (ms : List Message) (asg : List String),
      f ∉ (linkPass1 cat ms asg).2 →
      (linkPass1 cat ms asg).1.map (fun m => countFile f m.attachments) =
        ms.map fun m => countFile f m.attachments := by
  intro ms
  induction ms with
  | nil => intro asg _; rfl
  | cons m ms ih =>
    intro asg h
    rw [linkPass1_cons] at h ⊢
    have h1 : f ∉ (attachFiles cat (extractFilesInText m.text)
        m.attachments asg).2 :=
      fun hm => h (linkPass1_mono cat ms _ hm)
    simp only [List.map_cons]
    rw [attachFiles_unassigned_frame cat _ _ _ h1, ih _ h]

theorem totalFileCount_cons (f : String) (m : Message) (ms : List Message) :
    totalFileCount f (m :: ms) =
      countFile f m.attachments + totalFileCount f ms := by
  simp [totalFileCount]

theorem totalFileCount_eq_of_map_eq {f : String} {l1 l2 : List Message}
    (h : l1.map (fun m => countFile f m.attachments) =
      l2.map fun m => countFile f m.attachments) :
    totalFileCount f l1 = totalFileCount f l2 := by
  unfold totalFileCount
  rw [h]

theorem linkPass1_total_bound (cat : Catalog) {f : String} :
    ∀ (ms : List Message) (asg : List String),
      totalFileCount f (linkPass1 cat ms asg).1 ≤ totalFileCount f ms + 1 ∧
        (totalFileCount f (linkPass1 cat ms asg).1 ≠ totalFileCount f ms →
          f ∉ asg ∧ f ∈ (linkPass1 cat ms asg).2) := by
  intro ms
  induction ms with
  | nil =>
    intro asg
    exact ⟨Nat.le_succ _, fun h => absurd rfl h⟩
  | cons m ms ih =>
    intro asg
    rw [linkPass1_cons, totalFileCount_cons, totalFileCount_cons]
    dsimp only
    obtain ⟨hb, hflag⟩ := attachFiles_bound cat (extractFilesInText m.text)
      m.attachments asg
    by_cases hch : countFile f (attachFiles cat (extractFilesInText m.text)
        m.attachments asg).1 = countFile f m.attachments
    · rw [hch]
      obtain ⟨ihb, ihflag⟩ := ih
        (attachFiles cat (extractFilesInText m.text) m.attachments asg).2
      refine ⟨by omega, fun hne => ?_⟩
      obtain ⟨hn1, hn2⟩ := ihflag (by omega)
      exact ⟨fun hm => hn1 (attachFiles_mono cat _ _ _ hm), hn2⟩
    · obtain ⟨hn1, hn2⟩ := hflag hch
      have htail := totalFileCount_eq_of_map_eq
        (linkPass1_assigned_frame cat ms _ hn2)
      refine ⟨by omega, fun _ => ⟨hn1, linkPass1_mono cat ms _ hn2⟩⟩

/-- Pass 1 preserves every message's fields and only appends attachments. -/
theorem linkPass1_shape (cat : Catalog) :
    ∀ (ms : List Message) (asg : List String),
      List.Forall₂ (fun m m2 => m2.timestamp = m.timestamp ∧
        m2.author = m.author ∧ m2.text = m.text ∧
        ∃ extra, m2.attachments = m.attachments ++ extra)
        ms (linkPass1 cat ms asg).1 := by
  intro ms
  induction ms with
  | nil => intro asg; exact List.Forall₂.nil
  | cons m ms ih =>
    intro asg
    rw [linkPass1_cons]
    refine List.Forall₂.cons ⟨rfl, rfl, rfl, ?_⟩ (ih _)
    exact attachFiles_shape cat _ _ _

theorem countFile_eq_zero {f : String} {atts : List Attachment} :
    countFile f atts = 0 ↔ f ∉ atts.map Attachment.filename := by
  unfold countFile
  rw [List.length_eq_zero, List.filter_eq_nil_iff]
  simp only [List.mem_map, decide_eq_true_eq]
  constructor
  · rintro h ⟨a, ha, rfl⟩
    exact h a ha rfl
  · intro h a ha he
    exact h ⟨a, ha, he⟩

theorem mem_attachedFiles {f : String} {m : Message} :
    f ∈ attachedFiles m ↔ countFile f m.attachments ≠ 0 := by
  rw [Ne, countFile_eq_zero, not_not]
  exact Iff.rfl

theorem totalFileCount_zero {f : String} {ms : List Message}
    (h : ∀ m ∈ ms, m.attachments = []) : totalFileCount f ms = 0 := by
  induction ms with
  | nil => rfl
  | cons m ms ih =>
    rw [totalFileCount_cons, h m (List.mem_cons_self m ms),
      ih fun m2 hm2 => h m2 (List.mem_cons_of_mem m hm2)]
    rfl

theorem map_eq_get? {α β : Type} {g : α → β} {l1 l2 : List α}
    (h : l1.map g = l2.map g) (i : Nat) {x : α} (hx : l2.get? i = some x) :
    ∃ y, l1.get? i = some y ∧ g y = g x := by
  have h2 : (l1.map g).get? i = (l2.map g).get? i := by rw [h]
  rw [List.get?_map, List.get?_map, hx] at h2
  cases hy : l1.get? i with
  | none => rw [hy] at h2; exact absurd h2 (by simp)
  | some y =>
    rw [hy] at h2
    exact ⟨y, rfl, by simpa using h2⟩

/-- The indexed first-claim-wins property of pass 1: if message `i` is the
first (in processing order) to reference the catalogued filename `f`, then
after pass 1 message `i` carries `f`, any later message `j` that also
references `f` does not, and `f` is marked assigned. -/
theorem linkPass1_pairwise (cat : Catalog) {f : String} :
    ∀ (ms : List Message) (asg : List String) (i j : Nat) (mi mj : Message),
      i < j →
      ms.get? i = some mi → ms.get? j = some mj →
      (∀ m ∈ ms, m.attachments = []) →
      f ∈ extractFilesInText mi.text →
      (mediaLookup cat f).isSome →
      f ∉ asg →
      (∀ k mk, k < i → ms.get? k = some mk →
        f ∉ extractFilesInText mk.text) →
      ∃ mi2 mj2, (linkPass1 cat ms asg).1.get? i = some mi2 ∧
        (linkPass1 cat ms asg).1.get? j = some mj2 ∧
        f ∈ attachedFiles mi2 ∧ f ∉ attachedFiles mj2 ∧
        f ∈ (linkPass1 cat ms asg).2 := by
  intro ms
  induction ms with
  | nil => intro asg i j mi mj _ hgi _ _ _ _ _ _; simp at hgi
  | cons m rest ih =>
    intro asg i j mi mj hij hgi hgj hinit hfi hsome hasg hfirst
    rw [linkPass1_cons]
    cases i with
    | zero =>
      have hmi : m = mi := by simpa using hgi
      subst hmi
      cases j with
      | zero => omega
      | succ j2 =>
        simp only [List.get?_cons_succ] at hgj
        obtain ⟨hatt, hassigned⟩ := attachFiles_attaches cat
          (extractFilesInText m.text) m.attachments asg hfi hsome hasg
        have hmap := linkPass1_assigned_frame cat rest _ hassigned
        obtain ⟨mj2, hmj2, hcnt⟩ := map_eq_get? hmap j2 hgj
        refine ⟨_, mj2, rfl, by simpa using hmj2, ?_, ?_, ?_⟩
        · rw [mem_attachedFiles]
          dsimp only
          intro h0
          rw [countFile_eq_zero] at h0
          exact h0 hatt
        · have hcnt2 : countFile f mj2.attachments =
              countFile f mj.attachments := hcnt
          rw [mem_attachedFiles, not_not, hcnt2,
            hinit mj (List.mem_cons_of_mem m (List.get?_mem hgj))]
          rfl
        · exact linkPass1_mono cat rest _ hassigned
    | succ i2 =>
      cases j with
      | zero => omega
      | succ j2 =>
        simp only [List.get?_cons_succ] at hgi hgj
        have hm0 : f ∉ extractFilesInText m.text :=
          hfirst 0 m (Nat.succ_pos i2) rfl
        obtain ⟨-, hiff⟩ := attachFiles_not_mem cat
          (extractFilesInText m.text) m.attachments asg hm0
        have hasg2 : f ∉ (attachFiles cat (extractFilesInText m.text)
            m.attachments asg).2 := fun hm => hasg (hiff.mp hm)
        obtain ⟨mi2, mj2, h1, h2, h3, h4, h5⟩ := ih _ i2 j2 mi mj
          (by omega) hgi hgj
          (fun m2 hm2 => hinit m2 (List.mem_cons_of_mem m hm2))
          hfi hsome hasg2
          (fun k mk hk hgk => hfirst (k + 1) mk (by omega)
            (by simpa using hgk))
        exact ⟨mi2, mj2, by simpa using h1, by simpa using h2, h3, h4, h5⟩

/-! ## Lemmas about linker pass 2 -/

/-- Step equation: message skipped (it already has attachments, or its body is
neither empty nor a placeholder). -/
theorem linkPass2_cons_skip (cat : Catalog) (m : Message) (ms : List Message)
    (asg : List String)
    (h : (m.attachments.isEmpty && placeholderEligible m.text) = false) :
    linkPass2 cat (m :: ms) asg =
      (m :: (linkPass2 cat ms asg).1, (linkPass2 cat ms asg).2) := by
  simp only [linkPass2, h, Bool.false_eq_true, if_false]

/-- Step equation: eligible message but no date-matching unassigned entry. -/
theorem linkPass2_cons_none (cat : Catalog) (m : Message) (ms : List Message)
    (asg : List String) (hE : m.attachments.isEmpty = true)
    (hP : placeholderEligible m.text = true)
    (hs : fallbackScan cat asg m.timestamp.date = none) :
    linkPass2 cat (m :: ms) asg =
      (m :: (linkPass2 cat ms asg).1, (linkPass2 cat ms asg).2) := by
  simp only [linkPass2, hE, hP, Bool.and_self, if_true, hs]

/-- Step equation: eligible message attaching the scanned entry. -/
theorem linkPass2_cons_attach (cat : Catalog) (m : Message)
    (ms : List Message) (asg : List String) (fp : String × String)
    (hE : m.attachments.isEmpty = true)
    (hP : placeholderEligible m.text = true)
    (hs : fallbackScan cat asg m.timestamp.date = some fp) :
    linkPass2 cat (m :: ms) asg =
      ({ m with attachments := m.attachments ++ [mkAttachment fp.2 fp.1] } ::
        (linkPass2 cat ms (fp.1 :: asg)).1,
       (linkPass2 cat ms (fp.1 :: asg)).2) := by
  simp only [linkPass2, hE, hP, Bool.and_self, if_true, hs]

/-- What a successful fallback scan returns: a catalogued, unassigned entry
whose filename encodes the message's date. -/
theorem fallbackScan_spec {cat : Catalog} {asg : List String}
    {d : Nat × Nat × Nat} {fp : String × String}
    (h : fallbackScan cat asg d = some fp) :
    fp ∈ cat ∧ fp.1 ∉ asg ∧ fnameDate fp.1 = some d := by
  have hm := List.mem_of_find?_eq_some h
  have hp := List.find?_some h
  simp only [Bool.and_eq_true, Bool.not_eq_true', beq_iff_eq] at hp
  exact ⟨hm, not_mem_of_contains_false hp.1, hp.2⟩

theorem linkPass2_mono (cat : Catalog) {f : String} :
    ∀ (ms : List Message) (asg : List String),
      f ∈ asg → f ∈ (linkPass2 cat ms asg).2 := by
  intro ms
  induction ms with
  | nil => intro asg h; exact h
  | cons m ms ih =>
    intro asg h
    by_cases hc : (m.attachments.isEmpty && placeholderEligible m.text) = true
    · rw [Bool.and_eq_true] at hc
      obtain ⟨hE, hP⟩ := hc
      cases hs : fallbackScan cat asg m.timestamp.date with
      | none => rw [linkPass2_cons_none cat m ms asg hE hP hs]; exact ih asg h
      | some fp =>
        rw [linkPass2_cons_attach cat m ms asg fp hE hP hs]
        exact ih _ (List.mem_cons_of_mem _ h)
    · rw [linkPass2_cons_skip cat m ms asg (Bool.eq_false_iff.mpr hc)]
      exact ih asg h

theorem linkPass2_assigned_frame (cat : Catalog) {f : String} :
    ∀ (ms : List Message) (asg : List String),
      f ∈ asg →
      (linkPass2 cat ms asg).1.map (fun m => countFile f m.attachments) =
        ms.map fun m => countFile f m.attachments := by
  intro ms
  induction ms with
  | nil => intro asg _; rfl
  | cons m ms ih =>
    intro asg h
    by_cases hc : (m.attachments.isEmpty && placeholderEligible m.text) = true
    · rw [Bool.and_eq_true] at hc
      obtain ⟨hE, hP⟩ := hc
      cases hs : fallbackScan cat asg m.timestamp.date with
      | none =>
        rw [linkPass2_cons_none cat m ms asg hE hP hs]
        simp only [List.map_cons]
        rw [ih asg h]
      | some fp =>
        rw [linkPass2_cons_attach cat m ms asg fp hE hP hs]
        have hne : fp.1 ≠ f := by
          intro he
          exact (fallbackScan_spec hs).2.1 (he ▸ h)
        simp only [List.map_cons]
        rw [ih _ (List.mem_cons_of_mem _ h), countFile_append, countFile_mk,
          if_neg hne]
        simp
    · rw [linkPass2_cons_skip cat m ms asg (Bool.eq_false_iff.mpr hc)]
      simp only [List.map_cons]
      rw [ih asg h]

theorem linkPass2_total_bound (cat : Catalog) {f : String} :
    ∀ (ms : List Message) (asg : List String),
      totalFileCount f (linkPass2 cat ms asg).1 ≤ totalFileCount f ms + 1 ∧
        (totalFileCount f (linkPass2 cat ms asg).1 ≠ totalFileCount f ms →
          f ∉ asg ∧ f ∈ (linkPass2 cat ms asg).2) := by
  intro ms
  induction ms with
  | nil => intro asg; exact ⟨Nat.le_succ _, fun h => absurd rfl h⟩
  | cons m ms ih =>
    intro asg
    by_cases hc : (m.attachments.isEmpty && placeholderEligible m.text) = true
    · rw [Bool.and_eq_true] at hc
      obtain ⟨hE, hP⟩ := hc
      cases hs : fallbackScan cat asg m.timestamp.date with
      | none =>
        rw [linkPass2_cons_none cat m ms asg hE hP hs, totalFileCount_cons,
          totalFileCount_cons]
        obtain ⟨ihb, ihflag⟩ := ih asg
        refine ⟨by omega, fun hne => ?_⟩
        obtain ⟨h1, h2⟩ := ihflag (by omega)
        exact ⟨h1, h2⟩
      | some fp =>
        rw [linkPass2_cons_attach cat m ms asg fp hE hP hs,
          totalFileCount_cons, totalFileCount_cons]
        dsimp only
        obtain ⟨hmem, hnasg, hdate⟩ := fallbackScan_spec hs
        by_cases hfp : fp.1 = f
        · subst hfp
          have htail := totalFileCount_eq_of_map_eq
            (linkPass2_assigned_frame cat ms (fp.1 :: asg)
              (List.mem_cons_self fp.1 asg))
          rw [htail, countFile_append, countFile_mk, if_pos rfl]
          exact ⟨by omega, fun _ => ⟨hnasg,
            linkPass2_mono cat ms _ (List.mem_cons_self fp.1 asg)⟩⟩
        · rw [countFile_append, countFile_mk, if_neg hfp]
          obtain ⟨ihb, ihflag⟩ := ih (fp.1 :: asg)
          refine ⟨by omega, fun hne => ?_⟩
          obtain ⟨h1, h2⟩ := ihflag (by omega)
          exact ⟨fun hm => h1 (List.mem_cons_of_mem _ hm), h2⟩
    · rw [linkPass2_cons_skip cat m ms asg (Bool.eq_false_iff.mpr hc),
        totalFileCount_cons, totalFileCount_cons]
      obtain ⟨ihb, ihflag⟩ := ih asg
      refine ⟨by omega, fun hne => ?_⟩
      exact ihflag (by omega)

/-- Pass 2 preserves every message's fields and only appends attachments. -/
theorem linkPass2_shape (cat : Catalog) :
    ∀ (ms : List Message) (asg : List String),
      List.Forall₂ (fun m m2 => m2.timestamp = m.timestamp ∧
        m2.author = m.author ∧ m2.text = m.text ∧
        ∃ extra, m2.attachments = m.attachments ++ extra)
        ms (linkPass2 cat ms asg).1 := by
  intro ms
  induction ms with
  | nil => intro asg; exact List.Forall₂.nil
  | cons m ms ih =>
    intro asg
    by_cases hc : (m.attachments.isEmpty && placeholderEligible m.text) = true
    · rw [Bool.and_eq_true] at hc
      obtain ⟨hE, hP⟩ := hc
      cases hs : fallbackScan cat asg m.timestamp.date with
      | none =>
        rw [linkPass2_cons_none cat m ms asg hE hP hs]
        exact List.Forall₂.cons ⟨rfl, rfl, rfl, [], by simp⟩ (ih asg)
      | some fp =>
        rw [linkPass2_cons_attach cat m ms asg fp hE hP hs]
        exact List.Forall₂.cons ⟨rfl, rfl, rfl,
          [mkAttachment fp.2 fp.1], rfl⟩ (ih _)
    · rw [linkPass2_cons_skip cat m ms asg (Bool.eq_false_iff.mpr hc)]
      exact List.Forall₂.cons ⟨rfl, rfl, rfl, [], by simp⟩ (ih asg)

theorem forall2_trans {α : Type} {R : α → α → Prop}
    (hR : ∀ a b c, R a b → R b c → R a c) :
    ∀ {l1 l2 l3 : List α}, List.Forall₂ R l1 l2 → List.Forall₂ R l2 l3 →
      List.Forall₂ R l1 l3 := by
  intro l1 l2 l3 h12
  induction h12 generalizing l3 with
  | nil => intro h; exact h
  | cons hab htail ih =>
    intro h23
    cases h23 with
    | cons hbc h2 => exact List.Forall₂.cons (hR _ _ _ hab hbc) (ih h2)

/-- C1: a catalog entry is attached to at most one message across both linker
passes — globally, at most one `Attachment` record with a given filename
exists after linking (first conjunct, covering the `assigned`-flag check
before every attach in both passes); and for two messages both textually
referencing the same catalogued filename, the first of them in processing
order (with no earlier referencing message) receives the attachment while the
later one receives none from that file (second conjunct). -/
theorem c1_at_most_once :
    ∀ (cat : Catalog) (conv : Conversation) (f : String),
      (∀ m ∈ conv.messages, m.attachments = []) →
      totalFileCount f (link_attachments cat conv).messages ≤ 1
      ∧ (∀ i j mi mj, i < j →
          conv.messages.get? i = some mi → conv.messages.get? j = some mj →
          (mediaLookup cat f).isSome →
          f ∈ extractFilesInText mi.text → f ∈ extractFilesInText mj.text →
          (∀ k mk, k < i → conv.messages.get? k = some mk →
            f ∉ extractFilesInText mk.text) →
          ∃ mi2 mj2,
            (link_attachments cat conv).messages.get? i = some mi2 ∧
            (link_attachments cat conv).messages.get? j = some mj2 ∧
            f ∈ attachedFiles mi2 ∧ f ∉ attachedFiles mj2) := by
  intro cat conv f hinit
  have hlink : (link_attachments cat conv).messages =
      (linkPass2 cat (linkPass1 cat conv.messages []).1
        (linkPass1 cat conv.messages []).2).1 := rfl
  have h0 := totalFileCount_zero (f := f) hinit
  constructor
  · rw [hlink]
    obtain ⟨h1b, h1f⟩ := linkPass1_total_bound cat (f := f) conv.messages []
    by_cases hf1 : f ∈ (linkPass1 cat conv.messages []).2
    · have he := totalFileCount_eq_of_map_eq
        (linkPass2_assigned_frame cat (f := f)
          (linkPass1 cat conv.messages []).1
          (linkPass1 cat conv.messages []).2 hf1)
      omega
    · have h1 : totalFileCount f (linkPass1 cat conv.messages []).1 =
          totalFileCount f conv.messages := by
        by_contra hne
        exact hf1 (h1f hne).2
      obtain ⟨h2b, -⟩ := linkPass2_total_bound cat (f := f)
        (linkPass1 cat conv.messages []).1 (linkPass1 cat conv.messages []).2
      omega
  · intro i j mi mj hij hgi hgj hsome hfi hfj hfirst
    obtain ⟨mi2, mj2, hg1, hg2, hin, hout, hassigned⟩ :=
      linkPass1_pairwise cat conv.messages [] i j mi mj hij hgi hgj hinit hfi
        hsome (by simp) hfirst
    have hmap := linkPass2_assigned_frame cat (f := f)
      (linkPass1 cat conv.messages []).1 _ hassigned
    obtain ⟨mi3, hmi3, hci⟩ := map_eq_get? hmap i hg1
    obtain ⟨mj3, hmj3, hcj⟩ := map_eq_get? hmap j hg2
    rw [hlink]
    refine ⟨mi3, mj3, hmi3, hmj3, ?_, ?_⟩
    · rw [mem_attachedFiles]
      have h1 : countFile f mi3.attachments = countFile f mi2.attachments := hci
      rw [h1]
      exact mem_attachedFiles.mp hin
    · rw [mem_attachedFiles, not_not]
      rw [mem_attachedFiles, not_not] at hout
      have h1 : countFile f mj3.attachments = countFile f mj2.attachments := hcj
      rw [h1]
      exact hout

/-- Closed instance of `c1_at_most_once`: its pairwise conjunct for a concrete
two-message conversation both referencing the same catalogued file. -/
theorem c1_at_most_once_witness :
    ∃ mi2 mj2,
      (link_attachments [("a-20240305-WA1.jpg", "a-20240305-WA1.jpg")]
        ⟨"c", "t", [⟨⟨2024, 3, 5, 10, 0, 0⟩, "A", "a-20240305-WA1.jpg", []⟩,
          ⟨⟨2024, 3, 5, 11, 0, 0⟩, "B", "see a-20240305-WA1.jpg", []⟩],
          "b"⟩).messages.get? 0 = some mi2 ∧
      (link_attachments [("a-20240305-WA1.jpg", "a-20240305-WA1.jpg")]
        ⟨"c", "t", [⟨⟨2024, 3, 5, 10, 0, 0⟩, "A", "a-20240305-WA1.jpg", []⟩,
          ⟨⟨2024, 3, 5, 11, 0, 0⟩, "B", "see a-20240305-WA1.jpg", []⟩],
          "b"⟩).messages.get? 1 = some mj2 ∧
      "a-20240305-WA1.jpg" ∈ attachedFiles mi2 ∧
      "a-20240305-WA1.jpg" ∉ attachedFiles mj2 :=
  (c1_at_most_once [("a-20240305-WA1.jpg", "a-20240305-WA1.jpg")]
    ⟨"c", "t", [⟨⟨2024, 3, 5, 10, 0, 0⟩, "A", "a-20240305-WA1.jpg", []⟩,
      ⟨⟨2024, 3, 5, 11, 0, 0⟩, "B", "see a-20240305-WA1.jpg", []⟩], "b"⟩
    "a-20240305-WA1.jpg" (by decide)).2 0 1
    ⟨⟨2024, 3, 5, 10, 0, 0⟩, "A", "a-20240305-WA1.jpg", []⟩
    ⟨⟨2024, 3, 5, 11, 0, 0⟩, "B", "see a-20240305-WA1.jpg", []⟩
    (by omega) rfl rfl (by decide) (by decide) (by decide)
    (fun k mk hk _ => absurd hk (Nat.not_lt_zero k))

/-- C7: the date-fallback pass runs only for messages that have zero
attachments after the textual pass and whose trimmed body is empty or
contains a media-omitted placeholder case-insensitively (conjuncts 1–3 give
the exact step behaviour, with at most one attachment added); the attached
entry is a catalogued, unassigned entry encoding the message's own date
(conjunct 4), and it is the first such entry in catalog insertion order
(conjunct 5); concretely, a `<Media omitted>` message dated 2024-03-05
acquires the unassigned `IMG-20240305-WA0001.jpg` (conjunct 6) and does not
acquire it when an earlier message already claimed it (conjunct 7). -/
theorem c7_date_fallback :
    (∀ (cat : Catalog) (m : Message) (ms : List Message) (asg : List String),
        (m.attachments.isEmpty && placeholderEligible m.text) = false →
        linkPass2 cat (m :: ms) asg =
          (m :: (linkPass2 cat ms asg).1, (linkPass2 cat ms asg).2))
    ∧ (∀ (cat : Catalog) (m : Message) (ms : List Message) (asg : List String),
        m.attachments.isEmpty = true → placeholderEligible m.text = true →
        fallbackScan cat asg m.timestamp.date = none →
        linkPass2 cat (m :: ms) asg =
          (m :: (linkPass2 cat ms asg).1, (linkPass2 cat ms asg).2))
    ∧ (∀ (cat : Catalog) (m : Message) (ms : List Message) (asg : List String)
          (fp : String × String),
        m.attachments.isEmpty = true → placeholderEligible m.text = true →
        fallbackScan cat asg m.timestamp.date = some fp →
        linkPass2 cat (m :: ms) asg =
          ({ m with attachments := m.attachments ++ [mkAttachment fp.2 fp.1] } ::
            (linkPass2 cat ms (fp.1 :: asg)).1,
           (linkPass2 cat ms (fp.1 :: asg)).2))
    ∧ (∀ (cat : Catalog) (asg : List String) (d : Nat × Nat × Nat)
          (fp : String × String),
        fallbackScan cat asg d = some fp →
        fp ∈ cat ∧ fp.1 ∉ asg ∧ fnameDate fp.1 = some d)
    ∧ (∀ (pre post : Catalog) (e : String × String) (asg : List String)
          (d : Nat × Nat × Nat),
        (∀ e2 ∈ pre, e2.1 ∈ asg ∨ fnameDate e2.1 ≠ some d) →
        e.1 ∉ asg → fnameDate e.1 = some d →
        fallbackScan (pre ++ e :: post) asg d = some e)
    ∧ (link_attachments
        [("IMG-20240305-WA0001.jpg", "IMG-20240305-WA0001.jpg")]
        ⟨"c", "t", [⟨⟨2024, 3, 5, 14, 30, 0⟩, "A", "<Media omitted>", []⟩],
          "b"⟩).messages =
        [⟨⟨2024, 3, 5, 14, 30, 0⟩, "A", "<Media omitted>",
          [⟨"IMG-20240305-WA0001.jpg", "image", "IMG-20240305-WA0001.jpg"⟩]⟩]
    ∧ (link_attachments
        [("IMG-20240305-WA0001.jpg", "IMG-20240305-WA0001.jpg")]
        ⟨"c", "t", [⟨⟨2024, 3, 5, 10, 0, 0⟩, "A", "IMG-20240305-WA0001.jpg", []⟩,
          ⟨⟨2024, 3, 5, 14, 30, 0⟩, "B", "<Media omitted>", []⟩], "b"⟩).messages =
        [⟨⟨2024, 3, 5, 10, 0, 0⟩, "A", "IMG-20240305-WA0001.jpg",
          [⟨"IMG-20240305-WA0001.jpg", "image", "IMG-20240305-WA0001.jpg"⟩]⟩,
         ⟨⟨2024, 3, 5, 14, 30, 0⟩, "B", "<Media omitted>", []⟩] := by
  refine ⟨?_, ?_, ?_, ?_, ?_, by decide, by decide⟩
  · intro cat m ms asg h
    exact linkPass2_cons_skip cat m ms asg h
  · intro cat m ms asg hE hP hs
    exact linkPass2_cons_none cat m ms asg hE hP hs
  · intro cat m ms asg fp hE hP hs
    exact linkPass2_cons_attach cat m ms asg fp hE hP hs
  · intro cat asg d fp h
    exact fallbackScan_spec h
  · intro pre
    induction pre with
    | nil =>
      intro post e asg d _ hz hd
      have hc : asg.contains e.1 = false := by
        cases hcc : asg.contains e.1 with
        | false => rfl
        | true => exact absurd (mem_of_contains_true hcc) hz
      have hpred : (!asg.contains e.1 && (fnameDate e.1 == some d)) = true := by
        simp [hc, hd, hz]
      unfold fallbackScan
      rw [List.nil_append]
      exact List.find?_cons_of_pos post hpred
    | cons p pre ih =>
      intro post e asg d hpre hz hd
      have hp := hpre p (List.mem_cons_self p pre)
      unfold fallbackScan at ih ⊢
      rw [List.cons_append, List.find?_cons_of_neg, ih post e asg d
        (fun e2 he2 => hpre e2 (List.mem_cons_of_mem p he2)) hz hd]
      intro hcontra
      simp only [Bool.and_eq_true, Bool.not_eq_true', beq_iff_eq] at hcontra
      rcases hp with hp1 | hp1
      · exact not_mem_of_contains_false hcontra.1 hp1
      · exact hp1 hcontra.2

/-- Closed instance of `c7_date_fallback`: its first-unassigned-entry conjunct
for a one-entry catalog. -/
theorem c7_date_fallback_witness :
    fallbackScan ([] ++ ("IMG-20240305-WA0001.jpg", "p") :: []) []
      (2024, 3, 5) = some ("IMG-20240305-WA0001.jpg", "p") :=
  c7_date_fallback.2.2.2.2.1 [] [] ("IMG-20240305-WA0001.jpg", "p") []
    (2024, 3, 5) (fun e2 he2 => absurd he2 (List.not_mem_nil e2))
    (List.not_mem_nil _) (by decide)

/-- C10: linking only appends `Attachment` records to messages and marks
catalog entries assigned — every message's timestamp, author and text, the
number and order of messages, and the conversation's id, title and media root
are unchanged by `link_attachments`. -/
theorem c10_link_frame :
    ∀ (cat : Catalog) (conv : Conversation),
      (link_attachments cat conv).chat_id = conv.chat_id ∧
      (link_attachments cat conv).title = conv.title ∧
      (link_attachments cat conv).base_dir = conv.base_dir ∧
      List.Forall₂ (fun m m2 => m2.timestamp = m.timestamp ∧
        m2.author = m.author ∧ m2.text = m.text ∧
        ∃ extra, m2.attachments = m.attachments ++ extra)
        conv.messages (link_attachments cat conv).messages := by
  intro cat conv
  refine ⟨rfl, rfl, rfl, ?_⟩
  have h1 := linkPass1_shape cat conv.messages []
  have h2 := linkPass2_shape cat (linkPass1 cat conv.messages []).1
    (linkPass1 cat conv.messages []).2
  refine forall2_trans ?_ h1 h2
  rintro a b c ⟨t1, a1, x1, e1, he1⟩ ⟨t2, a2, x2, e2, he2⟩
  refine ⟨t2.trans t1, a2.trans a1, x2.trans x1, e1 ++ e2, ?_⟩
  rw [he2, he1, List.append_assoc]
